import Mathlib

/-!
Verification of the pose-evaluation pipeline of the Animator2D repository.

All definitions in this file are shallow embeddings of the TypeScript code in
`src/utils.ts` (with the record types reconstructed from their use sites and
from the project's data-model documentation, since `types.ts` itself only
declares data shapes).  JavaScript numbers are modelled as real numbers: the
code performs real arithmetic (including `Math.cos`, `Math.sin`, `Math.atan2`
and `Math.PI`), and every concrete value appearing in the claims is exactly
representable.  Functions that use trigonometry or real-number branching are
necessarily `noncomputable`; their concrete evaluations are carried out by
`simp`/`norm_num` proofs instead of `decide`.

Mutation semantics: `evaluateDrivers` begins with `const updatedBones =
[...bones]`, a shallow copy.  The copied array holds the same bone objects as
the caller's array, and the subsequent writes `updatedBones[index].rotation =
outputVal` (and the `x`/`y` analogues) mutate those shared objects in place.
Consequently (a) the list returned by the functional model below is, element
for element, also the state of the caller's bone objects after the call, and
(b) a second call on "the same array" actually receives the output of the
first call as its input.  The purity claims are settled against this reading.
The same aliasing applies to the nested `calculateFK(newBones)` calls inside
`solveIK`'s CCD loop and inside `applyAnimation`: each such call leaves the
working array in the state `evaluateDrivers newBones`, and the models of
`ikStep` and `applyAnimation` below thread that post-call state explicitly.
-/

namespace Animator2D

/-- A 2D point/vector, from `types.ts` (`Vector2 { x, y }`). -/
structure Vector2 where
  x : ℝ
  y : ℝ

/-- Easing law names from `types.ts` (`EasingType`).  The interpolation code
switches on `'ease-in' | 'ease-out' | 'ease-in-out'` and falls back to linear
for everything else; `bezier` is the reserved, unevaluated member. -/
inductive EasingType where
  | linear
  | easeIn
  | easeOut
  | easeInOut
  | bezier
deriving DecidableEq

/-- The animatable bone property names `'rotation' | 'x' | 'y'` used by
drivers and tracks. -/
inductive BoneProp where
  | rotation
  | x
  | y
deriving DecidableEq

/-- A constraint record: `type` is a string tag (only `"LIMIT_ROTATION"` is
interpreted), `min`/`max` are optional degree bounds (`undefined` modelled as
`none`), `influence` is carried but never read by the evaluation code. -/
structure Constraint where
  id : String
  type : String
  min : Option ℝ
  max : Option ℝ
  influence : ℝ

/-- A driver record: `Target = Source * Factor + Offset` applied from
`sourceBoneId`'s `sourceProperty` onto the owning bone's `driverProperty`. -/
structure Driver where
  sourceBoneId : String
  sourceProperty : BoneProp
  driverProperty : BoneProp
  factor : ℝ
  offset : ℝ

/-- A bone of the rig, from `types.ts` usage in `utils.ts`/`App.tsx`.
`locked`/`visible` are optional booleans in TypeScript; `undefined` is falsy,
so they are modelled as `Bool` with `false`/`true` defaults respectively. -/
structure Bone where
  id : String
  parentId : Option String
  name : String
  length : ℝ
  x : ℝ
  y : ℝ
  rotation : ℝ
  color : String
  locked : Bool := false
  visible : Bool := true
  constraints : List Constraint
  drivers : List Driver

/-- The FK output record: the spread `{...bone, rotation: rot, worldStart,
worldEnd, worldRotation}` built by `processBone`. -/
structure DerivedBone extends Bone where
  worldStart : Vector2
  worldEnd : Vector2
  worldRotation : ℝ

/-- One keyframe of a track. -/
structure Keyframe where
  time : ℝ
  value : ℝ
  easing : EasingType

/-- One animation track: all keyframes of one property of one bone. -/
structure Track where
  boneId : String
  property : BoneProp
  keyframes : List Keyframe

/-- An animation clip. -/
structure AnimationClip where
  id : String
  name : String
  duration : ℝ
  fps : ℝ
  tracks : List Track

/-- A sprite.  `applyAnimation` maps the identity over sprites, so only the
fields needed to state that are modelled. -/
structure Sprite where
  id : String
  boneId : String

/-- `degToRad` from `utils.ts`. -/
noncomputable def degToRad (deg : ℝ) : ℝ := deg * Real.pi / 180

/-- `radToDeg` from `utils.ts`. -/
noncomputable def radToDeg (rad : ℝ) : ℝ := rad * 180 / Real.pi

/-- Reading `sourceBone.rotation / .x / .y` according to `sourceProperty`
(the three `if (driver.sourceProperty === ...)` lines). -/
def readProp (b : Bone) : BoneProp → ℝ
  | .rotation => b.rotation
  | .x => b.x
  | .y => b.y

/-- Writing `updatedBones[index].rotation / .x / .y` according to
`driverProperty` (the three `if (driver.driverProperty === ...)` lines). -/
def writeProp (b : Bone) : BoneProp → ℝ → Bone
  | .rotation, v => { b with rotation := v }
  | .x, v => { b with x := v }
  | .y, v => { b with y := v }

/-- The body of the inner `targetBone.drivers.forEach(driver => ...)` of
`evaluateDrivers`: look up the source bone in the current array, compute the
affine value, and store it into the bone at position `i` of the current
array (in JavaScript this is an in-place mutation of the shared object). -/
def applyDriver (cur : List Bone) (i : Nat) (d : Driver) : List Bone :=
  match cur.find? (fun b => b.id = d.sourceBoneId) with
  | none => cur
  | some sourceBone =>
    let inputVal := readProp sourceBone d.sourceProperty
    let outputVal := inputVal * d.factor + d.offset
    match cur[i]? with
    | none => cur
    | some tb => cur.set i (writeProp tb d.driverProperty outputVal)

/-- One `updatedBones.forEach((targetBone, index) => ...)` pass of
`evaluateDrivers`. -/
def driverPass (bs : List Bone) : List Bone :=
  (List.range bs.length).foldl
    (fun cur i =>
      match cur[i]? with
      | none => cur
      | some targetBone => targetBone.drivers.foldl (fun c d => applyDriver c i d) cur)
    bs

/-- `evaluateDrivers` from `utils.ts`: `for (let pass = 0; pass < 2; pass++)`
runs exactly two passes over the bone array.  See the module comment for the
mutation semantics of the JavaScript original: the returned list is also the
post-call state of the caller's bone objects. -/
def evaluateDrivers (bones : List Bone) : List Bone :=
  driverPass (driverPass bones)

/-- The first `while` loop of `constrainRotation`: `while (v > 180) v -= 360`. -/
noncomputable def normDown (v : ℝ) : ℝ :=
  if h : v > 180 then normDown (v - 360) else v
termination_by (⌈(v - 180) / 360⌉).toNat
decreasing_by
  have h1 : (0:ℝ) < (v - 180) / 360 := by
    apply div_pos <;> linarith
  have h2 : 0 < ⌈(v - 180) / 360⌉ := Int.ceil_pos.mpr h1
  have h3 : ⌈(v - 360 - 180) / 360⌉ = ⌈(v - 180) / 360⌉ - 1 := by
    rw [show (v - 360 - 180) / 360 = (v - 180) / 360 - 1 by ring, Int.ceil_sub_one]
  omega

/-- The second `while` loop of `constrainRotation`: `while (v < -180) v += 360`. -/
noncomputable def normUp (v : ℝ) : ℝ :=
  if h : v < -180 then normUp (v + 360) else v
termination_by (⌈(-180 - v) / 360⌉).toNat
decreasing_by
  have h1 : (0:ℝ) < (-180 - v) / 360 := by
    apply div_pos <;> linarith
  have h2 : 0 < ⌈(-180 - v) / 360⌉ := Int.ceil_pos.mpr h1
  have h3 : ⌈(-180 - (v + 360)) / 360⌉ = ⌈(-180 - v) / 360⌉ - 1 := by
    rw [show (-180 - (v + 360)) / 360 = (-180 - v) / 360 - 1 by ring, Int.ceil_sub_one]
  omega

/-- The trailing clamp of `constrainRotation`:
`if (max !== undefined && v > max) return max; return v;`. -/
noncomputable def clampHigh (v : ℝ) : Option ℝ → ℝ
  | some mx => if v > mx then mx else v
  | none => v

/-- `constrainRotation` from `utils.ts`: normalize by repeated ±360, then
clamp below by `min` (when defined), then above by `max` (when defined). -/
noncomputable def constrainRotation (val : ℝ) (mn mx : Option ℝ) : ℝ :=
  let v := normUp (normDown val)
  match mn with
  | some m => if v < m then m else clampHigh v mx
  | none => clampHigh v mx

/-- The per-bone constraint step of `processBone` (and of `solveIK`):
`bone.constraints.find(c => c.type === 'LIMIT_ROTATION')` and, when present,
`constrainRotation(rot, limit.min, limit.max)`. -/
noncomputable def effectiveRotation (b : Bone) : ℝ :=
  match b.constraints.find? (fun c => c.type = "LIMIT_ROTATION") with
  | some limit => constrainRotation b.rotation limit.min limit.max
  | none => b.rotation

/-- The body of `processBone` that computes one derived bone: constraint
clamp, `worldStart` from the parent's `worldEnd` (or the bone's own `x`/`y`
for a root), `worldRotation` as the parent's world rotation plus the
constrained local rotation, and `worldEnd` by the length/angle offset. -/
noncomputable def deriveBone (parent : Option DerivedBone) (bone : Bone) : DerivedBone :=
  let rot := effectiveRotation bone
  let startX := match parent with
    | some p => p.worldEnd.x
    | none => bone.x
  let startY := match parent with
    | some p => p.worldEnd.y
    | none => bone.y
  let parentRot := match parent with
    | some p => p.worldRotation
    | none => 0
  let worldRot := parentRot + rot
  let angleRad := degToRad worldRot
  let endX := startX + Real.cos angleRad * bone.length
  let endY := startY + Real.sin angleRad * bone.length
  { { bone with rotation := rot } with
    worldStart := ⟨startX, startY⟩
    worldEnd := ⟨endX, endY⟩
    worldRotation := worldRot }

/-- `processBone` from `calculateFK`.  The JavaScript recursion walks from a
bone to `drivenBones.filter(b => b.parentId === bone.id)`; the embedding makes
the recursion well-founded with an explicit fuel counter.  `calculateFK`
supplies fuel equal to the number of bones, which (as proved below) is enough
for the whole traversal whenever bone ids are pairwise distinct, i.e. exactly
when the JavaScript recursion terminates. -/
noncomputable def processBone (all : List Bone) : Nat → Option DerivedBone → Bone → List DerivedBone
  | 0, _, _ => []
  | fuel + 1, parent, bone =>
    let derivedBone := deriveBone parent bone
    derivedBone ::
      (all.filter (fun b => b.parentId = some bone.id)).flatMap
        (fun child => processBone all fuel (some derivedBone) child)

/-- `calculateFK` with an explicit fuel bound for the `processBone`
recursion (used to state that the traversal terminates). -/
noncomputable def calculateFKFuel (bones : List Bone) (fuel : Nat) : List DerivedBone :=
  let drivenBones := evaluateDrivers bones
  (drivenBones.filter (fun b => b.parentId = none)).flatMap
    (fun root => processBone drivenBones fuel none root)

/-- `calculateFK` from `utils.ts`: evaluate drivers, then process every root
(`parentId === null`) by pre-order traversal, pushing each derived bone into
the result before its children. -/
noncomputable def calculateFK (bones : List Bone) : List DerivedBone :=
  calculateFKFuel bones (evaluateDrivers bones).length

/-- The chain-building `while (currentId && depth < 4)` loop of `solveIK`,
by recursion on the remaining depth budget. -/
def buildChain (bones : List Bone) : Nat → Option String → List String
  | 0, _ => []
  | _, none => []
  | depth + 1, some currentId =>
    currentId ::
      (match bones.find? (fun b => b.id = currentId) with
       | some b => buildChain bones depth b.parentId
       | none => buildChain bones depth none)

/-- `Math.atan2(y, x)`, via the complex argument (range `(-π, π]`,
`atan2 0 0 = 0`, matching JavaScript). -/
noncomputable def atan2 (y x : ℝ) : ℝ := Complex.arg ⟨x, y⟩

/-- One step of the CCD loop body of `solveIK` for one chain bone: recompute
FK, find the effector and the pivot, compute the signed angle difference,
and rotate the (unlocked) chain bone by it, clamping by its
`LIMIT_ROTATION` constraint.  Per the mutation semantics in the module
comment, the `calculateFK(newBones)` call leaves the working array in the
state `evaluateDrivers nb` (the driver pass writes through the shared bone
objects), so both the `continue` branch and the final `.map` read that
post-call state. -/
noncomputable def ikStep (effectorId : String) (target : Vector2) (nb : List Bone) (boneId : String) : List Bone :=
  let derived := calculateFK nb
  let nbPost := evaluateDrivers nb
  match derived.find? (fun b => b.id = effectorId), derived.find? (fun b => b.id = boneId) with
  | some effector, some currentDerived =>
    let effectorPos := effector.worldEnd
    let originPos := currentDerived.worldStart
    let toEffector : Vector2 := ⟨effectorPos.x - originPos.x, effectorPos.y - originPos.y⟩
    let toTarget : Vector2 := ⟨target.x - originPos.x, target.y - originPos.y⟩
    let angEffector := atan2 toEffector.y toEffector.x
    let angTarget := atan2 toTarget.y toTarget.x
    let angleDiff0 := radToDeg (angTarget - angEffector)
    let angleDiff1 := if angleDiff0 > 180 then angleDiff0 - 360 else angleDiff0
    let angleDiff := if angleDiff1 < -180 then angleDiff1 + 360 else angleDiff1
    nbPost.map (fun b =>
      if b.id = boneId ∧ b.locked = false then
        let newRot := b.rotation + angleDiff
        let newRot2 := match b.constraints.find? (fun c => c.type = "LIMIT_ROTATION") with
          | some limit => constrainRotation newRot limit.min limit.max
          | none => newRot
        { b with rotation := newRot2 }
      else b)
  | _, _ => nbPost

/-- `solveIK` from `utils.ts`: build the ≤4-bone chain from the effector
upward, then run 10 CCD iterations, each visiting the chain bones in
effector-to-root order. -/
noncomputable def solveIK (bones : List Bone) (effectorId : String) (target : Vector2) : List Bone :=
  let chain := buildChain bones 4 (some effectorId)
  (List.range 10).foldl (fun nb _ => chain.foldl (ikStep effectorId target) nb) bones

/-- `easeLinear` from `utils.ts`. -/
def easeLinear (t : ℝ) : ℝ := t

/-- `easeIn` from `utils.ts`. -/
def easeIn (t : ℝ) : ℝ := t * t

/-- `easeOut` from `utils.ts`. -/
def easeOut (t : ℝ) : ℝ := t * (2 - t)

/-- `easeInOut` from `utils.ts`. -/
noncomputable def easeInOut (t : ℝ) : ℝ :=
  if t < 0.5 then 2 * t * t else -1 + (4 - 2 * t) * t

/-- `getEasing` from `utils.ts`: dispatch on the easing tag, defaulting to
linear. -/
noncomputable def getEasing : EasingType → ℝ → ℝ
  | .easeIn, t => easeIn t
  | .easeOut, t => easeOut t
  | .easeInOut, t => easeInOut t
  | _, t => easeLinear t

/-- The non-destructive sort `[...track.keyframes].sort((a, b) => a.time - b.time)`
(JavaScript `Array.prototype.sort` is stable, as is `List.mergeSort`). -/
noncomputable def sortedKeys (track : Track) : List Keyframe :=
  track.keyframes.mergeSort (fun a b => a.time ≤ b.time)

/-- The `for (let i = 0; i < keys.length - 1; i++)` scan of
`getInterpolatedValue`: find the first adjacent pair bracketing `frame` and
return the eased interpolation. -/
noncomputable def interpScan (frame : ℝ) : List Keyframe → Option ℝ
  | k1 :: k2 :: rest =>
    if frame ≥ k1.time ∧ frame < k2.time then
      some (k1.value + (k2.value - k1.value) * getEasing k1.easing ((frame - k1.time) / (k2.time - k1.time)))
    else interpScan frame (k2 :: rest)
  | _ => none

/-- `getInterpolatedValue` from `utils.ts`.  The `!track.keyframes.length`
null-return corresponds to the empty sorted list (sorting is a permutation);
the fall-through `return keys[0].value` after the scan is the final
`match` default. -/
noncomputable def getInterpolatedValue (track : Track) (frame : ℝ) : Option ℝ :=
  match sortedKeys track with
  | [] => none
  | k :: ks =>
    if frame ≤ k.time then some k.value
    else if frame ≥ ((k :: ks).getLast (List.cons_ne_nil k ks)).time then
      some ((k :: ks).getLast (List.cons_ne_nil k ks)).value
    else
      match interpScan frame (k :: ks) with
      | some v => some v
      | none => some k.value

/-- The per-bone sampling step of `applyAnimation`: look up the rotation, x
and y tracks of the bone and overwrite each property whose track
interpolation is non-null. -/
noncomputable def sampleBone (clip : AnimationClip) (frame : ℝ) (bone : Bone) : Bone :=
  let b1 := match clip.tracks.find? (fun t => t.boneId = bone.id ∧ t.property = BoneProp.rotation) with
    | some rotTrack =>
      match getInterpolatedValue rotTrack frame with
      | some val => { bone with rotation := val }
      | none => bone
    | none => bone
  let b2 := match clip.tracks.find? (fun t => t.boneId = bone.id ∧ t.property = BoneProp.x) with
    | some xTrack =>
      match getInterpolatedValue xTrack frame with
      | some val => { b1 with x := val }
      | none => b1
    | none => b1
  match clip.tracks.find? (fun t => t.boneId = bone.id ∧ t.property = BoneProp.y) with
  | some yTrack =>
    match getInterpolatedValue yTrack frame with
    | some val => { b2 with y := val }
    | none => b2
  | none => b2

/-- `applyAnimation` from `utils.ts`: sample every bone from the clip's
tracks, run the sampled set through `calculateFK`, and copy each found
derived bone's (constrained) `rotation`/`x`/`y` back onto the sampled bone;
sprites are passed through unchanged.  Per the mutation semantics in the
module comment, the `calculateFK(newBones)` call leaves the sampled array in
the state `evaluateDrivers newBones`, so the copy-back map runs over that
post-call state: a bone found in the FK output gets the derived values
either way (they overwrite exactly the driven fields), while a bone missing
from the FK output is returned in its driver-written form. -/
noncomputable def applyAnimation (bones : List Bone) (sprites : List Sprite) (clip : AnimationClip) (frame : ℝ) : List Bone × List Sprite :=
  let newBones := bones.map (sampleBone clip frame)
  let derived := calculateFK newBones
  let finalBones := (evaluateDrivers newBones).map (fun b =>
    match derived.find? (fun db => db.id = b.id) with
    | some d => { b with rotation := d.rotation, x := d.x, y := d.y }
    | none => b)
  let newSprites := sprites.map (fun sprite => sprite)
  (finalBones, newSprites)

/-! ### Basic facts about the rotation normalization and clamp -/

theorem normDown_le (v : ℝ) : normDown v ≤ 180 := by
  induction v using normDown.induct with
  | case1 x hx ih => rw [normDown]; simp [hx, ih]
  | case2 x hx => rw [normDown]; simp [hx]; linarith

theorem normUp_ge (v : ℝ) : -180 ≤ normUp v := by
  induction v using normUp.induct with
  | case1 x hx ih => rw [normUp]; simp [hx, ih]
  | case2 x hx => rw [normUp]; simp [hx]; linarith

theorem normUp_le (v : ℝ) (h : v ≤ 180) : normUp v ≤ 180 := by
  induction v using normUp.induct with
  | case1 x hx ih => rw [normUp]; simp only [hx, dite_true, dif_pos]; exact ih (by linarith)
  | case2 x hx => rw [normUp]; simp [hx, h]

theorem clampHigh_le {v mx : ℝ} (h : v ≤ mx) : clampHigh v (some mx) ≤ mx := by
  rw [clampHigh]
  split <;> linarith

theorem constrainRotation_mem (v : ℝ) {m mx : ℝ} (h : m ≤ mx) :
    m ≤ constrainRotation v (some m) (some mx) ∧ constrainRotation v (some m) (some mx) ≤ mx := by
  rw [constrainRotation]
  by_cases hlt : normUp (normDown v) < m
  · simp [hlt, h]
  · simp only [hlt, if_false]
    push_neg at hlt
    constructor
    · rw [clampHigh]
      split <;> linarith
    · rw [clampHigh]
      split <;> linarith

theorem effectiveRotation_mem {b : Bone} {c : Constraint} {m mx : ℝ}
    (hfind : b.constraints.find? (fun cc => cc.type = "LIMIT_ROTATION") = some c)
    (hmin : c.min = some m) (hmax : c.max = some mx) (hmm : m ≤ mx) :
    m ≤ effectiveRotation b ∧ effectiveRotation b ≤ mx := by
  rw [effectiveRotation, hfind]
  dsimp only
  rw [hmin, hmax]
  exact constrainRotation_mem _ hmm

/-! ### Claim C8 (corrected) -/

/-- Claim C8, counterexample: the claim says normalization always lands in
the half-open interval `(-180, 180]`, strictly above `-180`; but the raw
value `-180` passes both `while` guards untouched, so the normalized value
is exactly `-180`, which is not strictly greater than `-180`. -/
theorem normalization_interval_cex :
    normUp (normDown (-180)) = -180 ∧ ¬ (-180 < normUp (normDown (-180))) := by
  have h1 : normDown (-180 : ℝ) = -180 := by rw [normDown]; norm_num
  have h2 : normUp (-180 : ℝ) = -180 := by rw [normUp]; norm_num
  rw [h1, h2]
  norm_num

/-- Claim C8, amended: for every real raw rotation value, the normalization
step of `constrainRotation` (the two `while (v > 180) / while (v < -180)`
loops) produces a value in the closed interval `[-180, 180]` — both
endpoints are attainable, so the interval is closed on the left as well,
not half-open as claimed. -/
theorem normalization_interval_amended (v : ℝ) :
    -180 ≤ normUp (normDown v) ∧ normUp (normDown v) ≤ 180 :=
  ⟨normUp_ge _, normUp_le _ (normDown_le v)⟩

/-! ### Claim C2 (confirmed) -/

/-- The bone of claim C2: a `LIMIT_ROTATION{min: -10, max: 130}` constraint
with raw local rotation `200`. -/
def c2bone : Bone :=
  { id := "b", parentId := none, name := "b", length := 10, x := 0, y := 0,
    rotation := 200, color := "",
    constraints := [{ id := "c", type := "LIMIT_ROTATION", min := some (-10), max := some 130, influence := 1 }],
    drivers := [] }

theorem normDown_200 : normDown 200 = -160 := by
  rw [normDown]; norm_num
  rw [normDown]; norm_num

theorem evaluateDrivers_c2bone : evaluateDrivers [c2bone] = [c2bone] := by
  simp [evaluateDrivers, driverPass, c2bone, List.range_succ]

/-- Claim C2: raw local rotation `200` with `LIMIT_ROTATION{min:-10,max:130}`
is first normalized to `-160` (one subtraction of `360`), `-160` falls below
the lower bound, and the effective derived local rotation — both as computed
by `constrainRotation` directly and as stored by `calculateFK` in the derived
bone — is exactly `-10`. -/
theorem rotation_clamp_spec :
    normUp (normDown 200) = -160 ∧
    (-160 : ℝ) < -10 ∧
    constrainRotation 200 (some (-10)) (some 130) = -10 ∧
    (calculateFK [c2bone]).map (fun db => db.rotation) = [-10] := by
  have hnorm : normUp (normDown (200 : ℝ)) = -160 := by
    rw [normDown_200, normUp]; norm_num
  have hcr : constrainRotation 200 (some (-10)) (some 130) = -10 := by
    rw [constrainRotation, hnorm]
    norm_num
  refine ⟨hnorm, by norm_num, hcr, ?_⟩
  rw [calculateFK, calculateFKFuel, evaluateDrivers_c2bone]
  simp [c2bone, processBone, deriveBone, effectiveRotation, hcr]

/-! ### Lemmas about the keyframe interpolator -/

theorem getEasing_zero (e : EasingType) : getEasing e 0 = 0 := by
  cases e <;> simp [getEasing, easeLinear, easeIn, easeOut, easeInOut] <;> norm_num

theorem sortedKeys_perm (track : Track) : (sortedKeys track).Perm track.keyframes :=
  List.mergeSort_perm _ _

theorem sortedKeys_sorted (track : Track) :
    List.Pairwise (fun a b : Keyframe => a.time ≤ b.time) (sortedKeys track) := by
  have h := @List.sorted_mergeSort Keyframe
    (fun a b : Keyframe => decide (a.time ≤ b.time))
    (fun a b c hab hbc => by
      simp only [decide_eq_true_eq] at *
      exact le_trans hab hbc)
    (fun a b => by
      simp only [Bool.or_eq_true, decide_eq_true_eq]
      exact le_total a.time b.time)
    track.keyframes
  exact h.imp (fun hab => by simpa using hab)

theorem sortedKeys_nodup_times (track : Track)
    (hd : (track.keyframes.map (fun k => k.time)).Nodup) :
    ((sortedKeys track).map (fun k => k.time)).Nodup :=
  (((sortedKeys_perm track).map (fun k => k.time)).nodup_iff).mpr hd

theorem sortedKeys_strict (track : Track)
    (hd : (track.keyframes.map (fun k => k.time)).Nodup) :
    List.Pairwise (fun a b : Keyframe => a.time < b.time) (sortedKeys track) := by
  have h1 := sortedKeys_sorted track
  have h2 : List.Pairwise (fun a b : Keyframe => a.time ≠ b.time) (sortedKeys track) := by
    have := sortedKeys_nodup_times track hd
    rw [List.Nodup, List.pairwise_map] at this
    exact this
  exact (h1.and h2).imp (fun hab => lt_of_le_of_ne hab.1 hab.2)

theorem interpScan_at (frame : ℝ) :
    ∀ (l : List Keyframe), List.Pairwise (fun a b : Keyframe => a.time ≤ b.time) l →
    ∀ i (hi : i + 1 < l.length),
      (l.get ⟨i, by omega⟩).time ≤ frame → frame < (l.get ⟨i + 1, hi⟩).time →
      interpScan frame l =
        some ((l.get ⟨i, by omega⟩).value +
          ((l.get ⟨i + 1, hi⟩).value - (l.get ⟨i, by omega⟩).value) *
            getEasing (l.get ⟨i, by omega⟩).easing
              ((frame - (l.get ⟨i, by omega⟩).time) /
                ((l.get ⟨i + 1, hi⟩).time - (l.get ⟨i, by omega⟩).time))) := by
  intro l
  induction l with
  | nil => intro _ i hi; simp at hi
  | cons k1 rest ih =>
    intro hp i hi h1 h2
    match rest, hi with
    | k2 :: rest', hi =>
      cases i with
      | zero =>
        simp only [List.get] at h1 h2 ⊢
        rw [interpScan]
        rw [if_pos ⟨h1, h2⟩]
      | succ j =>
        have hguard : ¬ (frame ≥ k1.time ∧ frame < k2.time) := by
          intro hg
          have hk2le : k2.time ≤ ((k2 :: rest').get ⟨j, by simp at hi ⊢; omega⟩).time := by
            rcases Nat.eq_zero_or_pos j with hj | hj
            · subst hj; simp
            · have hpair := List.pairwise_iff_get.mp hp.tail
              have := hpair ⟨0, by simp⟩ ⟨j, by simp at hi ⊢; omega⟩ (by simpa using hj)
              simpa using this
          have h1' : ((k2 :: rest').get ⟨j, by simp at hi ⊢; omega⟩).time ≤ frame := by
            simpa using h1
          exact absurd (lt_of_le_of_lt (le_trans hk2le h1') hg.2) (lt_irrefl _)
        rw [interpScan, if_neg hguard]
        exact ih hp.tail j (by simpa using hi) (by simpa using h1) (by simpa using h2)

theorem getInterpolatedValue_none_iff (track : Track) (frame : ℝ) :
    getInterpolatedValue track frame = none ↔ track.keyframes = [] := by
  rw [getInterpolatedValue]
  constructor
  · intro h
    match hs : sortedKeys track with
    | [] =>
      have hperm := sortedKeys_perm track
      have := hperm.length_eq
      rw [hs] at this
      exact List.length_eq_zero.mp this.symm
    | k :: ks =>
      rw [hs] at h
      simp only at h
      split at h
      · exact absurd h (by simp)
      · split at h
        · exact absurd h (by simp)
        · split at h <;> exact absurd h (by simp)
  · intro h
    have : sortedKeys track = [] := by
      have hperm := sortedKeys_perm track
      rw [h] at hperm
      exact hperm.eq_nil
    rw [this]

theorem getLast_time_ge (l : List Keyframe) (k : Keyframe) (ks : List Keyframe)
    (hl : l = k :: ks) (hp : List.Pairwise (fun a b : Keyframe => a.time ≤ b.time) l)
    (i : Nat) (hi : i < l.length) :
    (l.get ⟨i, hi⟩).time ≤ ((k :: ks).getLast (List.cons_ne_nil k ks)).time := by
  subst hl
  have hlast : (k :: ks).getLast (List.cons_ne_nil k ks) =
      (k :: ks).get ⟨ks.length, by simp⟩ := by
    rw [List.getLast_eq_get]
    congr 1
  rw [hlast]
  rcases Nat.lt_or_ge i ks.length with h | h
  · exact (List.pairwise_iff_get.mp hp) ⟨i, hi⟩ ⟨ks.length, by simp⟩ h
  · have hi' : i < ks.length + 1 := by simpa using hi
    have : i = ks.length := by omega
    subst this
    exact le_refl _

theorem head_time_le (l : List Keyframe) (k : Keyframe) (ks : List Keyframe)
    (hl : l = k :: ks) (hp : List.Pairwise (fun a b : Keyframe => a.time ≤ b.time) l)
    (i : Nat) (hi : i < l.length) :
    k.time ≤ (l.get ⟨i, hi⟩).time := by
  subst hl
  rcases Nat.eq_zero_or_pos i with h | h
  · subst h; simp
  · exact (List.pairwise_iff_get.mp hp) ⟨0, by simp⟩ ⟨i, hi⟩ h

/-- The track of claim C3's concrete instance: keyframes at time `0`
(value `10`) and time `10` (value `20`), linear easing. -/
def track10 : Track :=
  { boneId := "b", property := .rotation,
    keyframes := [{ time := 0, value := 10, easing := .linear },
                  { time := 10, value := 20, easing := .linear }] }

theorem sortedKeys_track10 : sortedKeys track10 = track10.keyframes := by
  rw [sortedKeys]
  apply List.mergeSort_of_sorted
  simp [track10, List.pairwise_cons]

theorem getInterpolatedValue_unfold (track : Track) (frame : ℝ) (k : Keyframe) (ks : List Keyframe)
    (hl : sortedKeys track = k :: ks) :
    getInterpolatedValue track frame =
      (if frame ≤ k.time then some k.value
       else if frame ≥ ((k :: ks).getLast (List.cons_ne_nil k ks)).time then
         some ((k :: ks).getLast (List.cons_ne_nil k ks)).value
       else match interpScan frame (k :: ks) with
         | some v => some v
         | none => some k.value) := by
  rw [getInterpolatedValue, hl]

theorem gi_track10_m5 : getInterpolatedValue track10 (-5) = some 10 := by
  rw [getInterpolatedValue_unfold track10 (-5) _ _ (by rw [sortedKeys_track10]; rfl)]
  norm_num [track10]

theorem gi_track10_15 : getInterpolatedValue track10 15 = some 20 := by
  rw [getInterpolatedValue_unfold track10 15 _ _ (by rw [sortedKeys_track10]; rfl)]
  norm_num [track10, List.getLast]

theorem gi_track10_5 : getInterpolatedValue track10 5 = some 15 := by
  rw [getInterpolatedValue_unfold track10 5 _ _ (by rw [sortedKeys_track10]; rfl)]
  norm_num [track10, List.getLast]
  rw [interpScan]
  norm_num [getEasing, easeLinear]

theorem gi_first_clause (track : Track) (frame : ℝ) (k : Keyframe) (ks : List Keyframe)
    (hl : sortedKeys track = k :: ks) (hle : frame ≤ k.time) :
    getInterpolatedValue track frame = some k.value := by
  rw [getInterpolatedValue_unfold track frame k ks hl, if_pos hle]

theorem gi_last_clause (track : Track) (frame : ℝ)
    (hd : (track.keyframes.map (fun kk => kk.time)).Nodup)
    (k : Keyframe) (ks : List Keyframe)
    (hl : sortedKeys track = k :: ks)
    (hge : ((k :: ks).getLast (List.cons_ne_nil k ks)).time ≤ frame) :
    getInterpolatedValue track frame = some ((k :: ks).getLast (List.cons_ne_nil k ks)).value := by
  rw [getInterpolatedValue_unfold track frame k ks hl]
  by_cases hfirst : frame ≤ k.time
  · have hkle : k.time ≤ ((k :: ks).getLast (List.cons_ne_nil k ks)).time := by
      have := getLast_time_ge (k :: ks) k ks rfl (by rw [← hl]; exact sortedKeys_sorted track) 0 (by simp)
      simpa using this
    have heq : k.time = ((k :: ks).getLast (List.cons_ne_nil k ks)).time :=
      le_antisymm hkle (le_trans hge hfirst)
    match ks with
    | [] => simp [List.getLast, if_pos hfirst]
    | k2 :: ks' =>
      exfalso
      have hstrict := sortedKeys_strict track hd
      rw [hl] at hstrict
      have hlast : (k :: k2 :: ks').getLast (List.cons_ne_nil k (k2 :: ks')) =
          (k :: k2 :: ks').get ⟨(k2 :: ks').length, by simp⟩ := by
        rw [List.getLast_eq_get]
        congr 1
      have hlt : k.time < ((k :: k2 :: ks').get ⟨(k2 :: ks').length, by simp⟩).time := by
        have := (List.pairwise_iff_get.mp hstrict) ⟨0, by simp⟩ ⟨(k2 :: ks').length, by simp⟩
          (Fin.mk_lt_mk.mpr (by simp))
        simpa using this
      rw [hlast] at heq
      exact absurd heq (ne_of_lt hlt)
  · rw [if_neg hfirst, if_pos hge]

theorem gi_mid_clause (track : Track) (frame : ℝ)
    (hd : (track.keyframes.map (fun kk => kk.time)).Nodup)
    (l : List Keyframe) (hl : sortedKeys track = l)
    (i : Nat) (hi : i + 1 < l.length)
    (h1 : (l.get ⟨i, by omega⟩).time ≤ frame)
    (h2 : frame < (l.get ⟨i + 1, hi⟩).time) :
    getInterpolatedValue track frame =
      some ((l.get ⟨i, by omega⟩).value +
        ((l.get ⟨i + 1, hi⟩).value - (l.get ⟨i, by omega⟩).value) *
          getEasing (l.get ⟨i, by omega⟩).easing
            ((frame - (l.get ⟨i, by omega⟩).time) /
              ((l.get ⟨i + 1, hi⟩).time - (l.get ⟨i, by omega⟩).time))) := by
  match l, hl, hi, h1, h2 with
  | [], hl, hi, h1, h2 => simp at hi
  | k :: ks, hl, hi, h1, h2 =>
    have hsorted : List.Pairwise (fun a b : Keyframe => a.time ≤ b.time) (k :: ks) := by
      rw [← hl]; exact sortedKeys_sorted track
    rw [getInterpolatedValue_unfold track frame k ks hl]
    by_cases hfirst : frame ≤ k.time
    · have hhead : k.time ≤ ((k :: ks).get ⟨i, by omega⟩).time :=
        head_time_le (k :: ks) k ks rfl hsorted i (by omega)
      have hfr : frame = k.time := le_antisymm hfirst (le_trans hhead h1)
      have hieq : i = 0 := by
        by_contra hne
        have hstrict := sortedKeys_strict track hd
        rw [hl] at hstrict
        have hlt : k.time < ((k :: ks).get ⟨i, by omega⟩).time := by
          have := (List.pairwise_iff_get.mp hstrict) ⟨0, by omega⟩ ⟨i, by omega⟩
            (Fin.mk_lt_mk.mpr (by omega))
          simpa using this
        have : k.time < frame := lt_of_lt_of_le hlt h1
        exact absurd hfr (ne_of_gt this)
      subst hieq
      rw [if_pos hfirst]
      have hget0 : ((k :: ks).get ⟨0, by omega⟩) = k := rfl
      rw [hget0, hfr, sub_self, zero_div, getEasing_zero, mul_zero, add_zero]
    · rw [if_neg hfirst]
      have hlastge : ((k :: ks).get ⟨i + 1, by omega⟩).time ≤
          ((k :: ks).getLast (List.cons_ne_nil k ks)).time :=
        getLast_time_ge (k :: ks) k ks rfl hsorted (i + 1) (by omega)
      have hsecond : ¬ (frame ≥ ((k :: ks).getLast (List.cons_ne_nil k ks)).time) := by
        intro hcon
        exact absurd (lt_of_lt_of_le h2 (le_trans hlastge hcon)) (lt_irrefl _)
      rw [if_neg hsecond]
      have hscan := interpScan_at frame (k :: ks) hsorted i (by omega) h1 h2
      rw [hscan]

/-! ### Claim C3 (confirmed) -/

/-- Claim C3: the keyframe interpolator returns `null` exactly when the track
has no keyframes; for a frame at or before the earliest keyframe it returns
that keyframe's value; for a frame at or after the latest keyframe it returns
that keyframe's value; for a frame bracketed by adjacent sorted keyframes
`k1, k2` (with `k1.time ≤ frame < k2.time`) it returns
`k1.value + (k2.value - k1.value) * ease(k1.easing, (frame - k1.time) / (k2.time - k1.time))`,
using the departure keyframe's easing.  Keyframe times are assumed pairwise
distinct (the documented at-most-one-keyframe-per-time track invariant).
Concretely, on keyframes `(0, 10)` and `(10, 20)`: frame `-5` gives `10`,
frame `15` gives `20`, frame `5` (linear) gives `15`. -/
theorem interpolator_spec (track : Track) (frame : ℝ)
    (hd : (track.keyframes.map (fun kk => kk.time)).Nodup) :
    (getInterpolatedValue track frame = none ↔ track.keyframes = []) ∧
    (∀ k ks, sortedKeys track = k :: ks → frame ≤ k.time →
      getInterpolatedValue track frame = some k.value) ∧
    (∀ k ks, sortedKeys track = k :: ks →
      ((k :: ks).getLast (List.cons_ne_nil k ks)).time ≤ frame →
      getInterpolatedValue track frame = some ((k :: ks).getLast (List.cons_ne_nil k ks)).value) ∧
    (∀ l, sortedKeys track = l → ∀ i (hi : i + 1 < l.length),
      (l.get ⟨i, by omega⟩).time ≤ frame →
      frame < (l.get ⟨i + 1, hi⟩).time →
      getInterpolatedValue track frame =
        some ((l.get ⟨i, by omega⟩).value +
          ((l.get ⟨i + 1, hi⟩).value - (l.get ⟨i, by omega⟩).value) *
            getEasing (l.get ⟨i, by omega⟩).easing
              ((frame - (l.get ⟨i, by omega⟩).time) /
                ((l.get ⟨i + 1, hi⟩).time - (l.get ⟨i, by omega⟩).time)))) ∧
    (getInterpolatedValue track10 (-5) = some 10 ∧
     getInterpolatedValue track10 15 = some 20 ∧
     getInterpolatedValue track10 5 = some 15) :=
  ⟨getInterpolatedValue_none_iff track frame,
   fun k ks hl hle => gi_first_clause track frame k ks hl hle,
   fun k ks hl hge => gi_last_clause track frame hd k ks hl hge,
   fun l hl i hi h1 h2 => gi_mid_clause track frame hd l hl i hi h1 h2,
   gi_track10_m5, gi_track10_15, gi_track10_5⟩

/-- Witness for claim C3 at the concrete track of the claim. -/
theorem interpolator_spec_witness :
    getInterpolatedValue track10 (-5) = some 10 ∧
    getInterpolatedValue track10 15 = some 20 ∧
    getInterpolatedValue track10 5 = some 15 :=
  (interpolator_spec track10 5 (by norm_num [track10])).2.2.2.2

/-! ### Structure of the FK traversal -/

theorem deriveBone_toBone (parent : Option DerivedBone) (bone : Bone) :
    (deriveBone parent bone).toBone = { bone with rotation := effectiveRotation bone } := rfl

theorem deriveBone_localEq (parent : Option DerivedBone) (bone : Bone) :
    (deriveBone parent bone).worldEnd.x =
      (deriveBone parent bone).worldStart.x +
        Real.cos (degToRad (deriveBone parent bone).worldRotation) * (deriveBone parent bone).length ∧
    (deriveBone parent bone).worldEnd.y =
      (deriveBone parent bone).worldStart.y +
        Real.sin (degToRad (deriveBone parent bone).worldRotation) * (deriveBone parent bone).length :=
  ⟨rfl, rfl⟩

theorem processBone_mem_spec (all : List Bone) (R : List DerivedBone) :
    ∀ (fuel : Nat) (parent : Option DerivedBone) (b : Bone),
      (∀ x ∈ processBone all fuel parent b, x ∈ R) →
      (∀ p, parent = some p → p ∈ R ∧ b.parentId = some p.id) →
      (parent = none → b.parentId = none) →
      ∀ db ∈ processBone all fuel parent b,
        (db.worldEnd.x = db.worldStart.x + Real.cos (degToRad db.worldRotation) * db.length ∧
         db.worldEnd.y = db.worldStart.y + Real.sin (degToRad db.worldRotation) * db.length) ∧
        (db.parentId = none →
          db.worldStart.x = db.x ∧ db.worldStart.y = db.y ∧ db.worldRotation = db.rotation) ∧
        (∀ pid, db.parentId = some pid → ∃ p, p ∈ R ∧ p.id = pid ∧
          db.worldStart = p.worldEnd ∧ db.worldRotation = p.worldRotation + db.rotation) ∧
        (∃ c, (c = b ∨ c ∈ all) ∧ db.toBone = { c with rotation := effectiveRotation c }) := by
  intro fuel
  induction fuel with
  | zero => intro parent b _ _ _ db hdb; rw [processBone] at hdb; simp at hdb
  | succ fuel ih =>
    intro parent b hsub hpar hroot db hdb
    rw [processBone] at hdb
    simp only [List.mem_cons, List.mem_flatMap] at hdb
    rcases hdb with hdb | ⟨child, hchild, hdbc⟩
    · subst hdb
      refine ⟨deriveBone_localEq parent b, ?_, ?_, ⟨b, Or.inl rfl, deriveBone_toBone parent b⟩⟩
      · intro hnone
        cases parent with
        | none =>
          refine ⟨rfl, rfl, ?_⟩
          show (0 : ℝ) + effectiveRotation b = effectiveRotation b
          rw [zero_add]
        | some p =>
          exfalso
          have := (hpar p rfl).2
          rw [show (deriveBone (some p) b).parentId = b.parentId from rfl] at hnone
          rw [this] at hnone
          exact Option.noConfusion hnone
      · intro pid hpid
        cases parent with
        | none =>
          exfalso
          have := hroot rfl
          rw [show (deriveBone none b).parentId = b.parentId from rfl] at hpid
          rw [this] at hpid
          exact Option.noConfusion hpid
        | some p =>
          obtain ⟨hpR, hbp⟩ := hpar p rfl
          rw [show (deriveBone (some p) b).parentId = b.parentId from rfl] at hpid
          rw [hbp] at hpid
          have hpe : p.id = pid := Option.some.inj hpid
          refine ⟨p, hpR, hpe, rfl, rfl⟩
    · have hchildmem := List.mem_filter.mp hchild
      have hchildpid : child.parentId = some b.id := by
        have := hchildmem.2
        simpa using this
      have hsub' : ∀ x ∈ processBone all fuel (some (deriveBone parent b)) child, x ∈ R := by
        intro x hx
        apply hsub
        rw [processBone]
        simp only [List.mem_cons, List.mem_flatMap]
        exact Or.inr ⟨child, hchild, hx⟩
      have hpar' : ∀ p, some (deriveBone parent b) = some p → p ∈ R ∧ child.parentId = some p.id := by
        intro p hp
        have hpe : deriveBone parent b = p := Option.some.inj hp
        subst hpe
        constructor
        · apply hsub
          rw [processBone]
          exact List.mem_cons_self _ _
        · rw [hchildpid]
          rfl
      have hroot' : some (deriveBone parent b) = none → child.parentId = none := by
        intro h; exact Option.noConfusion h
      have := ih (some (deriveBone parent b)) child hsub' hpar' hroot' db hdbc
      refine ⟨this.1, this.2.1, this.2.2.1, ?_⟩
      obtain ⟨c, hc, hcb⟩ := this.2.2.2
      refine ⟨c, Or.inr ?_, hcb⟩
      rcases hc with hc | hc
      · subst hc; exact hchildmem.1
      · exact hc

/-! ### Claim C1 (confirmed) -/

/-- The 2-bone chain of claim C1's concrete instance: root at `(0, 0)`,
rotation `0`, length `10`. -/
def rootBone10 : Bone :=
  { id := "root", parentId := none, name := "root", length := 10, x := 0, y := 0,
    rotation := 0, color := "", constraints := [], drivers := [] }

/-- Child of `rootBone10` with rotation `90` and length `5`. -/
def childBone5 : Bone :=
  { id := "child", parentId := some "root", name := "child", length := 5, x := 0, y := 0,
    rotation := 90, color := "", constraints := [], drivers := [] }

def demoBones : List Bone := [rootBone10, childBone5]

theorem evaluateDrivers_demoBones : evaluateDrivers demoBones = demoBones := by
  simp [evaluateDrivers, driverPass, demoBones, rootBone10, childBone5, List.range_succ]

theorem fk_demo :
    (calculateFK demoBones).map
        (fun d => ((d.worldStart.x, d.worldStart.y), d.worldRotation, (d.worldEnd.x, d.worldEnd.y))) =
      [((0, 0), 0, (10, 0)), ((10, 0), 90, (10, 5))] := by
  have hdeg0 : degToRad 0 = 0 := by rw [degToRad]; ring
  have hdeg90 : degToRad 90 = Real.pi / 2 := by rw [degToRad]; ring
  rw [calculateFK, calculateFKFuel, evaluateDrivers_demoBones]
  simp [demoBones, rootBone10, childBone5, processBone, deriveBone, effectiveRotation,
    hdeg0, hdeg90, Real.cos_pi_div_two, Real.sin_pi_div_two]

theorem calculateFK_demo_eq :
    calculateFK demoBones =
      [deriveBone none rootBone10, deriveBone (some (deriveBone none rootBone10)) childBone5] := by
  rw [calculateFK, calculateFKFuel, evaluateDrivers_demoBones]
  simp [demoBones, rootBone10, childBone5, processBone]

theorem demo_root_mem : deriveBone none rootBone10 ∈ calculateFK demoBones := by
  rw [calculateFK_demo_eq]
  exact List.mem_cons_self _ _

/-- Claim C1: every derived bone produced by `calculateFK` satisfies the FK
composition equations — `worldEnd` is `worldStart` plus `length` times
`(cos, sin)` of the world rotation in radians; a root (`parentId = null`)
starts at its own `(x, y)` with world rotation equal to its (constrained)
local rotation; a parented bone starts at its parent's `worldEnd` with world
rotation the parent's plus its own (constrained) local rotation, and the
stored local rotation is the constrained rotation of the corresponding
driver-evaluated bone.  Concretely, on the 2-bone chain (root at `(0,0)`,
rotation `0`, length `10`; child rotation `90`, length `5`): the root's
`worldEnd` is `(10, 0)` and the child's `worldStart` is `(10, 0)`,
`worldRotation` is `90`, and `worldEnd` is exactly `(10, 5)`. -/
theorem fk_composition (bones : List Bone) (db : DerivedBone) (hdb : db ∈ calculateFK bones) :
    ((db.worldEnd.x = db.worldStart.x + Real.cos (degToRad db.worldRotation) * db.length ∧
      db.worldEnd.y = db.worldStart.y + Real.sin (degToRad db.worldRotation) * db.length) ∧
     (db.parentId = none →
       db.worldStart.x = db.x ∧ db.worldStart.y = db.y ∧ db.worldRotation = db.rotation) ∧
     (∀ pid, db.parentId = some pid → ∃ p, p ∈ calculateFK bones ∧ p.id = pid ∧
       db.worldStart = p.worldEnd ∧ db.worldRotation = p.worldRotation + db.rotation) ∧
     (∃ c ∈ evaluateDrivers bones, db.toBone = { c with rotation := effectiveRotation c })) ∧
    (calculateFK demoBones).map
        (fun d => ((d.worldStart.x, d.worldStart.y), d.worldRotation, (d.worldEnd.x, d.worldEnd.y))) =
      [((0, 0), 0, (10, 0)), ((10, 0), 90, (10, 5))] := by
  constructor
  · simp only [calculateFK, calculateFKFuel, List.mem_flatMap] at hdb
    obtain ⟨root, hroot, hdbp⟩ := hdb
    have hrootfilter := List.mem_filter.mp hroot
    have hrootpid : root.parentId = none := by simpa using hrootfilter.2
    have h := processBone_mem_spec (evaluateDrivers bones) (calculateFK bones) _ none root
      (fun x hx => by
        simp only [calculateFK, calculateFKFuel, List.mem_flatMap]
        exact ⟨root, hroot, hx⟩)
      (fun p hp => Option.noConfusion hp)
      (fun _ => hrootpid)
      db hdbp
    refine ⟨h.1, h.2.1, h.2.2.1, ?_⟩
    obtain ⟨c, hc, hcb⟩ := h.2.2.2
    refine ⟨c, ?_, hcb⟩
    rcases hc with hc | hc
    · subst hc; exact hrootfilter.1
    · exact hc
  · exact fk_demo

/-- Witness for claim C1: the composition equations instantiated on the
claim's 2-bone chain, at its root's derived bone. -/
theorem fk_composition_witness :
    (calculateFK demoBones).map
        (fun d => ((d.worldStart.x, d.worldStart.y), d.worldRotation, (d.worldEnd.x, d.worldEnd.y))) =
      [((0, 0), 0, (10, 0)), ((10, 0), 90, (10, 5))] :=
  (fk_composition demoBones (deriveBone none rootBone10) demo_root_mem).2

/-! ### Driver evaluation: locked-flag invariance machinery -/

def setLockedTo (l : Bool) (b : Bone) : Bone := { b with locked := l }

theorem readProp_setLockedTo (l : Bool) (b : Bone) (p : BoneProp) :
    readProp (setLockedTo l b) p = readProp b p := by
  cases p <;> rfl

theorem writeProp_setLockedTo (l : Bool) (b : Bone) (p : BoneProp) (v : ℝ) :
    writeProp (setLockedTo l b) p v = setLockedTo l (writeProp b p v) := by
  cases p <;> rfl

theorem drivers_setLockedTo (l : Bool) (b : Bone) : (setLockedTo l b).drivers = b.drivers := rfl

theorem find?_id_map_setLockedTo (l : Bool) (bs : List Bone) (s : String) :
    (bs.map (setLockedTo l)).find? (fun b => b.id = s) =
      (bs.find? (fun b => b.id = s)).map (setLockedTo l) := by
  rw [List.find?_map]
  rfl

theorem applyDriver_map_setLockedTo (l : Bool) (cur : List Bone) (i : Nat) (d : Driver) :
    applyDriver (cur.map (setLockedTo l)) i d = (applyDriver cur i d).map (setLockedTo l) := by
  cases hf : cur.find? (fun b => b.id = d.sourceBoneId) with
  | none =>
    rw [applyDriver, applyDriver, find?_id_map_setLockedTo, hf]
    rfl
  | some src =>
    cases hg : cur[i]? with
    | none =>
      rw [applyDriver, applyDriver, find?_id_map_setLockedTo, hf, List.getElem?_map, hg]
      rfl
    | some tb =>
      rw [applyDriver, applyDriver, find?_id_map_setLockedTo, hf, List.getElem?_map, hg]
      dsimp only [Option.map]
      rw [readProp_setLockedTo, writeProp_setLockedTo, List.set_map]

theorem passFoldl_map_setLockedTo (l : Bool) : ∀ (idxs : List Nat) (cur : List Bone),
    List.foldl (fun cur i => match cur[i]? with
        | none => cur
        | some targetBone => targetBone.drivers.foldl (fun c d => applyDriver c i d) cur)
      (cur.map (setLockedTo l)) idxs =
    (List.foldl (fun cur i => match cur[i]? with
        | none => cur
        | some targetBone => targetBone.drivers.foldl (fun c d => applyDriver c i d) cur)
      cur idxs).map (setLockedTo l) := by
  intro idxs
  induction idxs with
  | nil => intro cur; rfl
  | cons i idxs ih =>
    intro cur
    simp only [List.foldl_cons]
    have hstep : (match (cur.map (setLockedTo l))[i]? with
        | none => cur.map (setLockedTo l)
        | some targetBone =>
          targetBone.drivers.foldl (fun c d => applyDriver c i d) (cur.map (setLockedTo l))) =
        (match cur[i]? with
          | none => cur
          | some targetBone =>
            targetBone.drivers.foldl (fun c d => applyDriver c i d) cur).map (setLockedTo l) := by
      rw [List.getElem?_map]
      cases hg : cur[i]? with
      | none => rfl
      | some tb =>
        dsimp only [Option.map]
        rw [drivers_setLockedTo]
        clear hg
        generalize tb.drivers = ds
        induction ds generalizing cur with
        | nil => rfl
        | cons d ds ihd =>
          simp only [List.foldl_cons]
          rw [applyDriver_map_setLockedTo]
          exact ihd _
    rw [hstep]
    exact ih _

theorem driverPass_map_setLockedTo (l : Bool) (bs : List Bone) :
    driverPass (bs.map (setLockedTo l)) = (driverPass bs).map (setLockedTo l) := by
  rw [driverPass, driverPass, List.length_map]
  exact passFoldl_map_setLockedTo l (List.range bs.length) bs

theorem evaluateDrivers_map_setLockedTo (l : Bool) (bs : List Bone) :
    evaluateDrivers (bs.map (setLockedTo l)) = (evaluateDrivers bs).map (setLockedTo l) := by
  rw [evaluateDrivers, evaluateDrivers, driverPass_map_setLockedTo, driverPass_map_setLockedTo]

/-! ### Concrete driver chains for the purity and locked-flag claims -/

/-- A rotation-to-rotation driver with factor `1` and offset `0`. -/
def rotDriver (src : String) : Driver :=
  { sourceBoneId := src, sourceProperty := .rotation, driverProperty := .rotation,
    factor := 1, offset := 0 }

/-- A root bone with the given id, rotation, locked flag and drivers. -/
def chainBone (i : String) (rot : ℝ) (lk : Bool) (ds : List Driver) : Bone :=
  { id := i, parentId := none, name := i, length := 1, x := 0, y := 0,
    rotation := rot, color := "", locked := lk, constraints := [], drivers := ds }

/-- A 3-link driver chain `A → B → C → D` stored in target-before-source
array order, so two passes do not fully propagate `A`'s rotation to `D`. -/
def chainBones : List Bone :=
  [chainBone "D" 0 false [rotDriver "C"], chainBone "C" 0 false [rotDriver "B"],
   chainBone "B" 0 false [rotDriver "A"], chainBone "A" 10 false []]

theorem evalDrivers_chain : evaluateDrivers chainBones =
    [chainBone "D" 0 false [rotDriver "C"], chainBone "C" 10 false [rotDriver "B"],
     chainBone "B" 10 false [rotDriver "A"], chainBone "A" 10 false []] := by
  rw [evaluateDrivers]
  have hp1 : driverPass chainBones =
      [chainBone "D" 0 false [rotDriver "C"], chainBone "C" 0 false [rotDriver "B"],
       chainBone "B" 10 false [rotDriver "A"], chainBone "A" 10 false []] := by
    simp [driverPass, chainBones, chainBone, rotDriver, List.range_succ, applyDriver,
      readProp, writeProp]
  rw [hp1]
  simp [driverPass, chainBone, rotDriver, List.range_succ, applyDriver, readProp, writeProp]

theorem evalDrivers_chain_twice : evaluateDrivers (evaluateDrivers chainBones) =
    [chainBone "D" 10 false [rotDriver "C"], chainBone "C" 10 false [rotDriver "B"],
     chainBone "B" 10 false [rotDriver "A"], chainBone "A" 10 false []] := by
  rw [evalDrivers_chain, evaluateDrivers]
  have hp1 : driverPass
      [chainBone "D" 0 false [rotDriver "C"], chainBone "C" 10 false [rotDriver "B"],
       chainBone "B" 10 false [rotDriver "A"], chainBone "A" 10 false []] =
      [chainBone "D" 10 false [rotDriver "C"], chainBone "C" 10 false [rotDriver "B"],
       chainBone "B" 10 false [rotDriver "A"], chainBone "A" 10 false []] := by
    simp [driverPass, chainBone, rotDriver, List.range_succ, applyDriver, readProp, writeProp]
  rw [hp1]
  simp [driverPass, chainBone, rotDriver, List.range_succ, applyDriver, readProp, writeProp]

theorem fk_chain_first : (calculateFK chainBones).map (fun db => db.rotation) = [0, 10, 10, 10] := by
  rw [calculateFK, calculateFKFuel, evalDrivers_chain]
  simp [chainBone, rotDriver, processBone, deriveBone, effectiveRotation]

theorem fk_chain_second :
    (calculateFK (evaluateDrivers chainBones)).map (fun db => db.rotation) = [10, 10, 10, 10] := by
  rw [calculateFK, calculateFKFuel, evalDrivers_chain_twice]
  simp [chainBone, rotDriver, processBone, deriveBone, effectiveRotation]

/-! ### Claim C5 (code_bug) -/

/-- Claim C5 is right about the intent but the code is wrong: the comment in
`evaluateDrivers` says "Deep copy to avoid mutation", yet `[...bones]` is a
shallow copy, so the driver writes mutate the caller's bone objects; a call
to `calculateFK` therefore leaves the input array in the state
`evaluateDrivers bones`.  On the 3-link driver chain `chainBones` the first
call returns derived rotations `[0, 10, 10, 10]` while a second call (whose
input is the mutated state, `evaluateDrivers chainBones`) returns
`[10, 10, 10, 10]` — repeated calls are neither side-effect-free nor
identical. -/
theorem fk_purity_violation :
    evaluateDrivers chainBones ≠ chainBones ∧
    (calculateFK (evaluateDrivers chainBones)).map (fun db => db.rotation) ≠
      (calculateFK chainBones).map (fun db => db.rotation) := by
  constructor
  · rw [evalDrivers_chain]
    intro h
    simp [chainBones, chainBone, rotDriver] at h
  · rw [fk_chain_first, fk_chain_second]
    intro h
    simp at h

/-! ### Claim C6 (code_bug) -/

/-- Bone `B` driven from bone `A`'s rotation. -/
def pairBones : List Bone := [chainBone "A" 10 false [], chainBone "B" 0 false [rotDriver "A"]]

theorem evalDrivers_pair : evaluateDrivers pairBones =
    [chainBone "A" 10 false [], chainBone "B" 10 false [rotDriver "A"]] := by
  simp [evaluateDrivers, driverPass, pairBones, chainBone, rotDriver, List.range_succ,
    applyDriver, readProp, writeProp]

/-- Claim C6 is right about the intended contract but the code is wrong: the
returned array does carry the driven values (`B`'s rotation becomes `10`),
but because `[...bones]` shares the bone objects with the caller, the write
`updatedBones[index].rotation = outputVal` also mutates the input array's
`B` object — the output differing from the input is exactly the mutation the
caller observes, contradicting both the claim and the code's own
"Deep copy to avoid mutation" comment. -/
theorem driver_purity_violation :
    (evaluateDrivers pairBones).map (fun b => b.rotation) = [10, 10] ∧
    pairBones.map (fun b => b.rotation) = [10, 0] ∧
    evaluateDrivers pairBones ≠ pairBones := by
  refine ⟨by rw [evalDrivers_pair]; simp [chainBone], by simp [pairBones, chainBone], ?_⟩
  rw [evalDrivers_pair]
  intro h
  simp [pairBones, chainBone] at h

/-! ### Claim C7 (corrected) -/

/-- Locked bone `L` driven from bone `A`'s rotation. -/
def lockPair : List Bone := [chainBone "A" 10 false [], chainBone "L" 0 true [rotDriver "A"]]

theorem evalDrivers_lockPair : evaluateDrivers lockPair =
    [chainBone "A" 10 false [], chainBone "L" 10 true [rotDriver "A"]] := by
  simp [evaluateDrivers, driverPass, lockPair, chainBone, rotDriver, List.range_succ,
    applyDriver, readProp, writeProp]

/-- Claim C7, counterexample: a locked bone (`L`, locked flag set, input
rotation `0`) carrying a rotation driver from `A` (rotation `10`) comes out
of the driver evaluator with rotation `10`, not its input rotation `0` —
`evaluateDrivers` never consults the locked flag. -/
theorem locked_driver_write_cex :
    lockPair.map (fun b => b.locked) = [false, true] ∧
    lockPair.map (fun b => b.rotation) = [10, 0] ∧
    (evaluateDrivers lockPair).map (fun b => b.rotation) = [10, 10] ∧
    (evaluateDrivers lockPair).map (fun b => b.rotation) ≠ lockPair.map (fun b => b.rotation) := by
  refine ⟨by simp [lockPair, chainBone], by simp [lockPair, chainBone],
    by rw [evalDrivers_lockPair]; simp [chainBone], ?_⟩
  rw [evalDrivers_lockPair]
  simp [lockPair, chainBone]

/-- Claim C7, amended: the driver evaluator ignores the `locked` flag
entirely — its output commutes with uniformly rewriting every bone's locked
flag, and (concretely) a locked bone with a rotation driver has its rotation
overwritten by the driven value exactly like an unlocked one.  The locked
flag only gates IK and interactive rotation writes, not driver writes. -/
theorem evaluateDrivers_ignores_locked (bones : List Bone) (l : Bool) :
    evaluateDrivers (bones.map (setLockedTo l)) = (evaluateDrivers bones).map (setLockedTo l) ∧
    (evaluateDrivers lockPair).map (fun b => b.rotation) = [10, 10] :=
  ⟨evaluateDrivers_map_setLockedTo l bones,
   by rw [evalDrivers_lockPair]; simp [chainBone]⟩

/-! ### Claim C4 (corrected): the IK solver's frame effect -/

theorem forall₂_mem_left {α β : Type} {R : α → β → Prop} {l1 : List α} {l2 : List β}
    (h : List.Forall₂ R l1 l2) {a : α} (ha : a ∈ l1) : ∃ b ∈ l2, R a b := by
  rw [List.forall₂_iff_get] at h
  obtain ⟨hlen, hget⟩ := h
  obtain ⟨⟨i, hi⟩, hia⟩ := List.mem_iff_get.mp ha
  have hi2 : i < l2.length := by omega
  refine ⟨l2.get ⟨i, hi2⟩, List.get_mem l2 i hi2, ?_⟩
  rw [← hia]
  exact hget i hi hi2

/-- A pass of the driver evaluator over a driver-free array is the
identity. -/
theorem driverPass_of_driverFree (bs : List Bone) (hdf : ∀ b ∈ bs, b.drivers = []) :
    driverPass bs = bs := by
  rw [driverPass]
  suffices h : ∀ idxs : List Nat, idxs.foldl
      (fun cur i =>
        match cur[i]? with
        | none => cur
        | some targetBone => targetBone.drivers.foldl (fun c d => applyDriver c i d) cur)
      bs = bs by
    exact h _
  intro idxs
  induction idxs with
  | nil => rfl
  | cons i idxs ih =>
    simp only [List.foldl_cons]
    have hstep : (match bs[i]? with
        | none => bs
        | some targetBone => targetBone.drivers.foldl (fun c d => applyDriver c i d) bs) = bs := by
      cases hg : bs[i]? with
      | none => rfl
      | some tb =>
        show tb.drivers.foldl (fun c d => applyDriver c i d) bs = bs
        rw [hdf tb (List.getElem?_mem hg), List.foldl_nil]
    rw [hstep]
    exact ih

/-- The driver evaluator is the identity on a driver-free array (both of its
passes are). -/
theorem evaluateDrivers_of_driverFree (bs : List Bone) (hdf : ∀ b ∈ bs, b.drivers = []) :
    evaluateDrivers bs = bs := by
  rw [evaluateDrivers, driverPass_of_driverFree bs hdf, driverPass_of_driverFree bs hdf]

/-- Relation between an output bone and its input bone: they agree on every
field except possibly rotation, and also on rotation whenever the input bone
is off-chain or locked. -/
def SameUpToRotation (chain : List String) (b' b : Bone) : Prop :=
  b' = { b with rotation := b'.rotation } ∧
  ((b.id ∉ chain ∨ b.locked = true) → b'.rotation = b.rotation)

theorem sameUpToRotation_refl (chain : List String) (b : Bone) : SameUpToRotation chain b b :=
  ⟨rfl, fun _ => rfl⟩

theorem forall₂_map_left {α β : Type} {R : α → β → Prop} (f : α → α)
    (hf : ∀ a b, R a b → R (f a) b) :
    ∀ {l₁ : List α} {l₂ : List β}, List.Forall₂ R l₁ l₂ → List.Forall₂ R (l₁.map f) l₂ := by
  intro l₁ l₂ h
  induction h with
  | nil => exact List.Forall₂.nil
  | cons hab _ ih => exact List.Forall₂.cons (hf _ _ hab) ih

theorem sameUpToRotation_drivers {chain : List String} {b' b : Bone}
    (h : SameUpToRotation chain b' b) : b'.drivers = b.drivers := by
  rw [h.1]

theorem ikStep_rel (chain : List String) (effectorId : String) (target : Vector2)
    (boneId : String) (hbc : boneId ∈ chain) (nb bones : List Bone)
    (hdf : ∀ b ∈ bones, b.drivers = [])
    (h : List.Forall₂ (SameUpToRotation chain) nb bones) :
    List.Forall₂ (SameUpToRotation chain) (ikStep effectorId target nb boneId) bones := by
  have hnbdf : ∀ b ∈ nb, b.drivers = [] := by
    intro b hb
    obtain ⟨b2, hb2, hrel⟩ := forall₂_mem_left h hb
    rw [sameUpToRotation_drivers hrel]
    exact hdf b2 hb2
  have hpost : evaluateDrivers nb = nb := evaluateDrivers_of_driverFree nb hnbdf
  rw [ikStep, hpost]
  cases (calculateFK nb).find? (fun b => b.id = effectorId) with
  | none => exact h
  | some effector =>
    cases (calculateFK nb).find? (fun b => b.id = boneId) with
    | none => exact h
    | some currentDerived =>
      dsimp only
      apply forall₂_map_left _ _ h
      intro b' b hrel
      by_cases hcond : b'.id = boneId ∧ b'.locked = false
      · rw [if_pos hcond]
        obtain ⟨heq, hrot⟩ := hrel
        constructor
        · rw [heq]
        · intro hcase
          exfalso
          have hid : b'.id = b.id := by rw [heq]
          have hlk : b'.locked = b.locked := by rw [heq]
          rcases hcase with hnc | hl
          · apply hnc
            rw [← hid, hcond.1]
            exact hbc
          · rw [hl] at hlk
            rw [hcond.2] at hlk
            exact Bool.noConfusion hlk
      · rw [if_neg hcond]
        exact hrel

theorem chainFoldl_rel (chain : List String) (effectorId : String) (target : Vector2)
    (bones : List Bone) (hdf : ∀ b ∈ bones, b.drivers = []) :
    ∀ (ids : List String), (∀ x ∈ ids, x ∈ chain) →
    ∀ (nb : List Bone), List.Forall₂ (SameUpToRotation chain) nb bones →
    List.Forall₂ (SameUpToRotation chain) (ids.foldl (ikStep effectorId target) nb) bones := by
  intro ids
  induction ids with
  | nil => intro _ nb h; exact h
  | cons i ids ih =>
    intro hsub nb h
    simp only [List.foldl_cons]
    exact ih (fun x hx => hsub x (List.mem_cons_of_mem _ hx)) _
      (ikStep_rel chain effectorId target i (hsub i (List.mem_cons_self _ _)) nb bones hdf h)

theorem buildChain_length_le (bones : List Bone) :
    ∀ (fuel : Nat) (cid : Option String), (buildChain bones fuel cid).length ≤ fuel := by
  intro fuel
  induction fuel with
  | zero => intro cid; cases cid <;> simp [buildChain]
  | succ fuel ih =>
    intro cid
    cases cid with
    | none => simp [buildChain]
    | some currentId =>
      rw [buildChain]
      cases bones.find? (fun b => b.id = currentId) with
      | none => simpa using Nat.succ_le_succ (ih none)
      | some b => simpa using Nat.succ_le_succ (ih b.parentId)

theorem iterFoldl_rel (chain : List String) (effectorId : String) (target : Vector2)
    (bones : List Bone) (hdf : ∀ b ∈ bones, b.drivers = []) :
    ∀ (iters : List Nat) (nb : List Bone),
      List.Forall₂ (SameUpToRotation chain) nb bones →
      List.Forall₂ (SameUpToRotation chain)
        (iters.foldl (fun nb _ => chain.foldl (ikStep effectorId target) nb) nb) bones := by
  intro iters
  induction iters with
  | nil => intro nb h; exact h
  | cons it iters ih =>
    intro nb h
    simp only [List.foldl_cons]
    exact ih _ (chainFoldl_rel chain effectorId target bones hdf chain (fun x hx => hx) nb h)

/-- The two constant drivers (factor `0`) of the counterexample's off-chain
bone `P`: they write rotation `5` and `y` `7` on every driver pass. -/
def ikCexDrivers : List Driver :=
  [{ sourceBoneId := "P", sourceProperty := .rotation, driverProperty := .rotation,
     factor := 0, offset := 5 },
   { sourceBoneId := "P", sourceProperty := .rotation, driverProperty := .y,
     factor := 0, offset := 7 }]

/-- The counterexample rig: a locked, driver-free effector root `E` and an
off-chain driven root `P` (rotation `0`, `y` `0` on input). -/
def ikCexBones : List Bone :=
  [chainBone "E" 0 true [], chainBone "P" 0 false ikCexDrivers]

/-- `P` after one driver pass: rotation `5`, `y` `7` (a fixpoint of further
passes, since the drivers are constant). -/
def ikCexPDriven : Bone := { chainBone "P" 0 false ikCexDrivers with rotation := 5, y := 7 }

theorem ikCex_chain : buildChain ikCexBones 4 (some "E") = ["E"] := by
  simp [buildChain, ikCexBones, chainBone]

theorem evalDrivers_ikCex0 :
    evaluateDrivers ikCexBones = [chainBone "E" 0 true [], ikCexPDriven] := by
  simp [evaluateDrivers, driverPass, ikCexBones, ikCexPDriven, chainBone, ikCexDrivers,
    List.range_succ, applyDriver, readProp, writeProp]

theorem evalDrivers_ikCex1 :
    evaluateDrivers [chainBone "E" 0 true [], ikCexPDriven] =
      [chainBone "E" 0 true [], ikCexPDriven] := by
  simp [evaluateDrivers, driverPass, ikCexPDriven, chainBone, ikCexDrivers,
    List.range_succ, applyDriver, readProp, writeProp]

theorem ikStep_ikCex0 :
    ikStep "E" ⟨3, 4⟩ ikCexBones "E" = [chainBone "E" 0 true [], ikCexPDriven] := by
  rw [ikStep, evalDrivers_ikCex0]
  cases (calculateFK ikCexBones).find? (fun b => b.id = "E") with
  | none => rfl
  | some effector =>
    simp [ikCexPDriven, chainBone]

theorem ikStep_ikCex1 :
    ikStep "E" ⟨3, 4⟩ [chainBone "E" 0 true [], ikCexPDriven] "E" =
      [chainBone "E" 0 true [], ikCexPDriven] := by
  rw [ikStep, evalDrivers_ikCex1]
  cases (calculateFK [chainBone "E" 0 true [], ikCexPDriven]).find? (fun b => b.id = "E") with
  | none => rfl
  | some effector =>
    simp [ikCexPDriven, chainBone]

/-- Claim C4, counterexample: on a driver-carrying input the solver's frame
effect fails.  The rig has a locked effector root `E` and a second root `P`
that is not on the chain (`chain = ["E"]`) and carries two constant drivers.
On input both bones have rotation `0` and `y` `0`, yet in `solveIK`'s
returned array `P` has rotation `5` and `y` `7`: each CCD step's
`calculateFK` call writes the driver outputs through the shared bone
objects, changing an off-chain bone's rotation and a bone's `y`. -/
theorem ik_frame_effect_cex :
    ikCexBones.map (fun b => (b.rotation, b.y)) = [(0, 0), (0, 0)] ∧
    "P" ∉ buildChain ikCexBones 4 (some "E") ∧
    (solveIK ikCexBones "E" ⟨3, 4⟩).map (fun b => (b.rotation, b.y)) = [(0, 0), (5, 7)] := by
  refine ⟨by simp [ikCexBones, chainBone], by rw [ikCex_chain]; simp, ?_⟩
  rw [solveIK, ikCex_chain]
  have h10 : List.range 10 = [0, 1, 2, 3, 4, 5, 6, 7, 8, 9] := by decide
  rw [h10]
  simp only [List.foldl_cons, List.foldl_nil, ikStep_ikCex0, ikStep_ikCex1]
  simp [ikCexPDriven, chainBone]

/-- Claim C4, amended: the claimed frame effect holds for every input bone
array in which no bone carries drivers — the solver changes only the local
rotations of the at-most-4 bones on the chain walked upward from the
effector (and among those only unlocked ones); every other bone's rotation,
and every bone's `x`/`y` (indeed every non-rotation field), is returned
unchanged, in the same array order.  Without the driver-free hypothesis the
claim is false (see the counterexample above): every `calculateFK` call
inside the CCD loop writes driver outputs through the shared bone objects,
changing driven properties of arbitrary bones in the returned array. -/
theorem ik_frame_effect_amended (bones : List Bone) (effectorId : String) (target : Vector2)
    (hdf : ∀ b ∈ bones, b.drivers = []) :
    (buildChain bones 4 (some effectorId)).length ≤ 4 ∧
    List.Forall₂ (SameUpToRotation (buildChain bones 4 (some effectorId)))
      (solveIK bones effectorId target) bones := by
  refine ⟨buildChain_length_le bones 4 (some effectorId), ?_⟩
  rw [solveIK]
  exact iterFoldl_rel _ effectorId target bones hdf (List.range 10) bones
    (List.forall₂_same.mpr (fun b _ => sameUpToRotation_refl _ b))

/-- A bone of the 6-deep IK chain used in the claim's concrete instance. -/
def ikBone (i : String) (pid : Option String) (rot : ℝ) : Bone :=
  { id := i, parentId := pid, name := i, length := 10, x := 0, y := 0,
    rotation := rot, color := "", constraints := [], drivers := [] }

/-- A 6-bone-deep chain `b1 ← b2 ← ... ← b6`; `b6` is the effector. -/
def sixBones : List Bone :=
  [ikBone "b1" none 7, ikBone "b2" (some "b1") 8, ikBone "b3" (some "b2") 0,
   ikBone "b4" (some "b3") 0, ikBone "b5" (some "b4") 0, ikBone "b6" (some "b5") 0]

theorem sixChain : buildChain sixBones 4 (some "b6") = ["b6", "b5", "b4", "b3"] := by
  simp [buildChain, sixBones, ikBone]

theorem sixBones_driverFree : ∀ b ∈ sixBones, b.drivers = [] := by
  intro b hb
  simp only [sixBones, List.mem_cons, List.not_mem_nil, or_false] at hb
  rcases hb with h | h | h | h | h | h <;> (rw [h]; rfl)

/-- Witness for claim C4's amended theorem: the 6-bone-deep chain is
driver-free, the IK chain is only the nearest 4 bones, and the 5th and 6th
ancestors (`b2` and `b1`) keep their input rotations `8` and `7` in the
solver's output. -/
theorem ik_frame_effect_witness :
    ((solveIK sixBones "b6" ⟨30, 40⟩).map (fun b => b.rotation))[0]? = some 7 ∧
    ((solveIK sixBones "b6" ⟨30, 40⟩).map (fun b => b.rotation))[1]? = some 8 := by
  have h := (ik_frame_effect_amended sixBones "b6" ⟨30, 40⟩ sixBones_driverFree).2
  rw [sixChain, List.forall₂_iff_get] at h
  obtain ⟨hlen, hrel⟩ := h
  have hlen6 : (solveIK sixBones "b6" ⟨30, 40⟩).length = 6 := by
    rw [hlen]; rfl
  constructor
  · have hr := (hrel 0 (by omega) (by norm_num [sixBones])).2
    have hb : (sixBones.get ⟨0, by norm_num [sixBones]⟩) = ikBone "b1" none 7 := rfl
    rw [hb] at hr
    have hrot := hr (Or.inl (by simp [ikBone]))
    simp only [List.getElem?_map]
    rw [List.getElem?_eq_getElem (by omega)]
    dsimp only [Option.map]
    simp only [List.get_eq_getElem] at hrot
    rw [hrot]
    rfl
  · have hr := (hrel 1 (by omega) (by norm_num [sixBones])).2
    have hb : (sixBones.get ⟨1, by norm_num [sixBones]⟩) = ikBone "b2" (some "b1") 8 := rfl
    rw [hb] at hr
    have hrot := hr (Or.inl (by simp [ikBone]))
    simp only [List.getElem?_map]
    rw [List.getElem?_eq_getElem (by omega)]
    dsimp only [Option.map]
    simp only [List.get_eq_getElem] at hrot
    rw [hrot]
    rfl

/-- Relation: differs from `b` at most in `rotation`, `x` and `y`. -/
def UpdRXY (b' b : Bone) : Prop :=
  b' = { b with rotation := b'.rotation, x := b'.x, y := b'.y }

theorem updRXY_refl (b : Bone) : UpdRXY b b := rfl

theorem updRXY_writeProp {tb b : Bone} (h : UpdRXY tb b) (p : BoneProp) (v : ℝ) :
    UpdRXY (writeProp tb p v) b := by
  cases p <;> (rw [UpdRXY] at h ⊢; rw [h]; rfl)

theorem forall₂_set_left {α β : Type} {R : α → β → Prop} {l1 : List α} {l2 : List β}
    (h : List.Forall₂ R l1 l2) (i : Nat) (x : α)
    (hx : ∀ (h2 : i < l2.length), R x (l2.get ⟨i, h2⟩)) :
    List.Forall₂ R (l1.set i x) l2 := by
  rw [List.forall₂_iff_get] at h ⊢
  obtain ⟨hlen, hget⟩ := h
  refine ⟨by simpa using hlen, ?_⟩
  intro j h1 h2
  by_cases hij : j = i
  · subst hij
    have hxx : (l1.set j x).get ⟨j, h1⟩ = x := List.get_set_eq h1
    rw [hxx]
    exact hx h2
  · have hne : (l1.set i x).get ⟨j, h1⟩ = l1.get ⟨j, by simp at h1; omega⟩ := by
      simp only [List.get_eq_getElem]
      exact List.getElem_set_ne (fun hh => hij hh.symm) h1
    rw [hne]
    exact hget j _ h2



theorem applyDriver_rel {cur bs : List Bone} (h : List.Forall₂ UpdRXY cur bs)
    (i : Nat) (d : Driver) : List.Forall₂ UpdRXY (applyDriver cur i d) bs := by
  rw [applyDriver]
  cases cur.find? (fun b => b.id = d.sourceBoneId) with
  | none => exact h
  | some src =>
    cases hg : cur[i]? with
    | none => exact h
    | some tb =>
      dsimp only
      apply forall₂_set_left h i _
      intro h2
      have hlen := h.length_eq
      have hi1 : i < cur.length := by
        rw [hlen]; exact h2
      have htb : tb = cur.get ⟨i, hi1⟩ := by
        have := List.getElem?_eq_getElem hi1
        rw [this] at hg
        simpa using hg.symm
      have hrel : UpdRXY tb (bs.get ⟨i, h2⟩) := by
        rw [htb]
        exact (List.forall₂_iff_get.mp h).2 i hi1 h2
      exact updRXY_writeProp hrel _ _

theorem driversFoldl_rel {cur bs : List Bone} (h : List.Forall₂ UpdRXY cur bs) (i : Nat) :
    ∀ (ds : List Driver), List.Forall₂ UpdRXY (ds.foldl (fun c d => applyDriver c i d) cur) bs := by
  suffices hgen : ∀ (ds : List Driver) (cur : List Bone), List.Forall₂ UpdRXY cur bs →
      List.Forall₂ UpdRXY (ds.foldl (fun c d => applyDriver c i d) cur) bs by
    intro ds; exact hgen ds cur h
  intro ds
  induction ds with
  | nil => intro cur h; exact h
  | cons d ds ih =>
    intro cur h
    simp only [List.foldl_cons]
    exact ih _ (applyDriver_rel h i d)

theorem passFoldl_rel {bs : List Bone} :
    ∀ (idxs : List Nat) (cur : List Bone), List.Forall₂ UpdRXY cur bs →
    List.Forall₂ UpdRXY
      (List.foldl (fun cur i => match cur[i]? with
        | none => cur
        | some targetBone => targetBone.drivers.foldl (fun c d => applyDriver c i d) cur)
        cur idxs) bs := by
  intro idxs
  induction idxs with
  | nil => intro cur h; exact h
  | cons i idxs ih =>
    intro cur h
    simp only [List.foldl_cons]
    apply ih
    cases cur[i]? with
    | none => exact h
    | some targetBone => exact driversFoldl_rel h i targetBone.drivers

theorem driverPass_rel (bs : List Bone) : List.Forall₂ UpdRXY (driverPass bs) bs := by
  rw [driverPass]
  exact passFoldl_rel (List.range bs.length) bs (List.forall₂_same.mpr (fun b _ => updRXY_refl b))

theorem updRXY_trans {a b c : Bone} (h1 : UpdRXY a b) (h2 : UpdRXY b c) : UpdRXY a c := by
  rw [UpdRXY] at *
  rw [h1, h2]

theorem forall₂_updRXY_trans {l1 l2 l3 : List Bone}
    (h1 : List.Forall₂ UpdRXY l1 l2) (h2 : List.Forall₂ UpdRXY l2 l3) :
    List.Forall₂ UpdRXY l1 l3 := by
  rw [List.forall₂_iff_get] at h1 h2 ⊢
  obtain ⟨ha, hb⟩ := h1
  obtain ⟨hc, hd⟩ := h2
  refine ⟨ha.trans hc, ?_⟩
  intro i hi1 hi3
  exact updRXY_trans (hb i hi1 (by omega)) (hd i (by omega) hi3)

theorem evaluateDrivers_rel (bs : List Bone) : List.Forall₂ UpdRXY (evaluateDrivers bs) bs := by
  rw [evaluateDrivers]
  exact forall₂_updRXY_trans (driverPass_rel (driverPass bs)) (driverPass_rel bs)

theorem updRXY_sampleBone (clip : AnimationClip) (frame : ℝ) (bone : Bone) :
    UpdRXY (sampleBone clip frame bone) bone := by
  rw [sampleBone]
  repeat' split
  all_goals rfl



theorem updRXY_id {b' b : Bone} (h : UpdRXY b' b) : b'.id = b.id := by
  rw [UpdRXY] at h
  rw [h]

theorem updRXY_constraints {b' b : Bone} (h : UpdRXY b' b) : b'.constraints = b.constraints := by
  rw [UpdRXY] at h
  rw [h]

theorem calculateFK_source (bs : List Bone) (d : DerivedBone) (hd : d ∈ calculateFK bs) :
    ∃ src ∈ evaluateDrivers bs, d.toBone = { src with rotation := effectiveRotation src } := by
  simp only [calculateFK, calculateFKFuel, List.mem_flatMap] at hd
  obtain ⟨root, hroot, hdp⟩ := hd
  have hrootfilter := List.mem_filter.mp hroot
  have hrootpid : root.parentId = none := by simpa using hrootfilter.2
  have h := processBone_mem_spec (evaluateDrivers bs) (calculateFK bs) _ none root
    (fun x hx => by
      simp only [calculateFK, calculateFKFuel, List.mem_flatMap]
      exact ⟨root, hroot, hx⟩)
    (fun p hp => Option.noConfusion hp)
    (fun _ => hrootpid)
    d hdp
  obtain ⟨c, hc, hcb⟩ := h.2.2.2
  refine ⟨c, ?_, hcb⟩
  rcases hc with hc | hc
  · subst hc; exact hrootfilter.1
  · exact hc

theorem sampled_ids (bones : List Bone) (clip : AnimationClip) (frame : ℝ) :
    (bones.map (sampleBone clip frame)).map (fun b => b.id) = bones.map (fun b => b.id) := by
  rw [List.map_map]
  apply List.map_congr_left
  intro b _
  exact updRXY_id (updRXY_sampleBone clip frame b)

theorem sampler_reconciliation_amended (bones : List Bone) (sprites : List Sprite)
    (clip : AnimationClip) (frame : ℝ)
    (hids : (bones.map (fun b => b.id)).Nodup) :
    ((applyAnimation bones sprites clip frame).2 = sprites) ∧
    (∀ b', b' ∈ (applyAnimation bones sprites clip frame).1 →
      ∀ d, (calculateFK (bones.map (sampleBone clip frame))).find? (fun db => db.id = b'.id) = some d →
        (b'.rotation = d.rotation ∧ b'.x = d.x ∧ b'.y = d.y) ∧
        (∀ c m M, b'.constraints.find? (fun cc => cc.type = "LIMIT_ROTATION") = some c →
          c.min = some m → c.max = some M → m ≤ M →
          m ≤ b'.rotation ∧ b'.rotation ≤ M)) := by
  constructor
  · show sprites.map (fun s => s) = sprites
    simp
  · intro b' hb' d hd
    have hsampled : (applyAnimation bones sprites clip frame).1 =
        (evaluateDrivers (bones.map (sampleBone clip frame))).map (fun b =>
          match (calculateFK (bones.map (sampleBone clip frame))).find? (fun db => db.id = b.id) with
          | some dd => { b with rotation := dd.rotation, x := dd.x, y := dd.y }
          | none => b) := rfl
    rw [hsampled] at hb'
    obtain ⟨b, hbmem, hbeq⟩ := List.mem_map.mp hb'
    have hbid : b'.id = b.id := by
      rw [← hbeq]
      cases hF : (calculateFK (bones.map (sampleBone clip frame))).find? (fun db => db.id = b.id) <;>
        simp [hF]
    rw [hbid] at hd
    rw [hd] at hbeq
    have hbeq' : b' = { b with rotation := d.rotation, x := d.x, y := d.y } := hbeq.symm
    refine ⟨by rw [hbeq']; exact ⟨rfl, rfl, rfl⟩, ?_⟩
    intro c m M hfindc hmin hmax hmm
    -- the derived bone's stored rotation is the constrained rotation of its source bone
    have hdmem : d ∈ calculateFK (bones.map (sampleBone clip frame)) := List.mem_of_find?_eq_some hd
    obtain ⟨src, hsrcmem, hsrceq⟩ := calculateFK_source _ d hdmem
    have hdid : d.id = src.id := by
      rw [show d.id = d.toBone.id from rfl, hsrceq]
    have hdrot : d.rotation = effectiveRotation src := by
      rw [show d.rotation = d.toBone.rotation from rfl, hsrceq]
    have hdcons : d.constraints = src.constraints := by
      rw [show d.constraints = d.toBone.constraints from rfl, hsrceq]
    obtain ⟨t, htmem, htrel⟩ := forall₂_mem_left (evaluateDrivers_rel (bones.map (sampleBone clip frame))) hsrcmem
    obtain ⟨tb, htbmem, htbrel⟩ := forall₂_mem_left (evaluateDrivers_rel (bones.map (sampleBone clip frame))) hbmem
    have hdpred : d.id = b.id := by
      have := List.find?_some hd
      simpa using this
    have htid : t.id = tb.id := by
      rw [← updRXY_id htrel, ← hdid, hdpred, updRXY_id htbrel]
    have httb : t = tb := by
      have hnd : ((bones.map (sampleBone clip frame)).map (fun bb : Bone => bb.id)).Nodup := by
        rw [sampled_ids]
        exact hids
      exact @List.inj_on_of_nodup_map Bone String (fun bb : Bone => bb.id) _ hnd t htmem tb htbmem htid
    have hconschain : b'.constraints = src.constraints := by
      rw [hbeq']
      show b.constraints = src.constraints
      rw [updRXY_constraints htbrel, ← httb, ← updRXY_constraints htrel]
    have hsrcfind : src.constraints.find? (fun cc => cc.type = "LIMIT_ROTATION") = some c := by
      rw [← hconschain]
      exact hfindc
    have hbounds := effectiveRotation_mem hsrcfind hmin hmax hmm
    have hrot : b'.rotation = effectiveRotation src := by
      rw [hbeq']
      show d.rotation = effectiveRotation src
      exact hdrot
    rw [hrot]
    exact hbounds



def limitC : Constraint :=
  { id := "c", type := "LIMIT_ROTATION", min := some (-10), max := some 130, influence := 1 }

def orphanBone : Bone :=
  { id := "o", parentId := some "ghost", name := "o", length := 10, x := 0, y := 0,
    rotation := 0, color := "", constraints := [limitC], drivers := [] }

def orphanTrack : Track :=
  { boneId := "o", property := .rotation,
    keyframes := [{ time := 0, value := 200, easing := .linear }] }

def orphanClip : AnimationClip :=
  { id := "clip", name := "clip", duration := 10, fps := 24, tracks := [orphanTrack] }

theorem sortedKeys_orphanTrack : sortedKeys orphanTrack = orphanTrack.keyframes := by
  rw [sortedKeys]
  apply List.mergeSort_of_sorted
  simp [orphanTrack]

theorem gi_orphan : getInterpolatedValue orphanTrack 0 = some 200 := by
  rw [getInterpolatedValue_unfold orphanTrack 0 _ _ (by rw [sortedKeys_orphanTrack]; rfl)]
  norm_num [orphanTrack]

theorem orphan_sample :
    sampleBone orphanClip 0 orphanBone = { orphanBone with rotation := 200 } := by
  rw [sampleBone]
  have hft : orphanClip.tracks.find?
      (fun t => t.boneId = orphanBone.id ∧ t.property = BoneProp.rotation) = some orphanTrack := by
    simp [orphanClip, orphanTrack, orphanBone]
  have hfx : orphanClip.tracks.find?
      (fun t => t.boneId = orphanBone.id ∧ t.property = BoneProp.x) = none := by
    simp [orphanClip, orphanTrack, orphanBone]
  have hfy : orphanClip.tracks.find?
      (fun t => t.boneId = orphanBone.id ∧ t.property = BoneProp.y) = none := by
    simp [orphanClip, orphanTrack, orphanBone]
  rw [hft]
  dsimp only
  rw [gi_orphan]
  dsimp only
  rw [hfx]
  dsimp only
  rw [hfy]

theorem orphan_cex_eval :
    ((applyAnimation [orphanBone] [] orphanClip 0).1).map (fun b => b.rotation) = [200] := by
  rw [applyAnimation]
  simp only [List.map_cons, List.map_nil, orphan_sample]
  have hdrv : evaluateDrivers [{ orphanBone with rotation := 200 }] =
      [{ orphanBone with rotation := 200 }] := by
    simp [evaluateDrivers, driverPass, List.range_succ, orphanBone]
  have hfk : calculateFK [{ orphanBone with rotation := 200 }] = [] := by
    rw [calculateFK, calculateFKFuel, hdrv]
    simp [orphanBone]
  rw [hdrv, hfk]
  simp [orphanBone]



theorem sampler_clamp_cex :
    orphanBone.constraints.find? (fun cc => cc.type = "LIMIT_ROTATION") = some limitC ∧
    limitC.min = some (-10) ∧ limitC.max = some 130 ∧ (-10 : ℝ) ≤ 130 ∧
    ((applyAnimation [orphanBone] [] orphanClip 0).1).map (fun b => b.rotation) = [200] ∧
    ¬ ((200 : ℝ) ≤ 130) := by
  refine ⟨by simp [orphanBone, limitC], rfl, rfl, by norm_num, orphan_cex_eval, by norm_num⟩

def rootConstrained : Bone :=
  { id := "r", parentId := none, name := "r", length := 10, x := 0, y := 0,
    rotation := 0, color := "", constraints := [limitC], drivers := [] }

def rootTrack : Track :=
  { boneId := "r", property := .rotation,
    keyframes := [{ time := 0, value := 200, easing := .linear }] }

def rootClip : AnimationClip :=
  { id := "clip2", name := "clip2", duration := 10, fps := 24, tracks := [rootTrack] }

theorem sortedKeys_rootTrack : sortedKeys rootTrack = rootTrack.keyframes := by
  rw [sortedKeys]
  apply List.mergeSort_of_sorted
  simp [rootTrack]

theorem gi_rootTrack : getInterpolatedValue rootTrack 0 = some 200 := by
  rw [getInterpolatedValue_unfold rootTrack 0 _ _ (by rw [sortedKeys_rootTrack]; rfl)]
  norm_num [rootTrack]

theorem root_sample :
    sampleBone rootClip 0 rootConstrained = { rootConstrained with rotation := 200 } := by
  rw [sampleBone]
  have hft : rootClip.tracks.find?
      (fun t => t.boneId = rootConstrained.id ∧ t.property = BoneProp.rotation) = some rootTrack := by
    simp [rootClip, rootTrack, rootConstrained]
  have hfx : rootClip.tracks.find?
      (fun t => t.boneId = rootConstrained.id ∧ t.property = BoneProp.x) = none := by
    simp [rootClip, rootTrack, rootConstrained]
  have hfy : rootClip.tracks.find?
      (fun t => t.boneId = rootConstrained.id ∧ t.property = BoneProp.y) = none := by
    simp [rootClip, rootTrack, rootConstrained]
  rw [hft]
  dsimp only
  rw [gi_rootTrack]
  dsimp only
  rw [hfx]
  dsimp only
  rw [hfy]

noncomputable def rcDerived : DerivedBone := deriveBone none { rootConstrained with rotation := 200 }

noncomputable def rcFinal : Bone :=
  { rootConstrained with rotation := rcDerived.rotation, x := rcDerived.x, y := rcDerived.y }

theorem rc_fk : calculateFK ([rootConstrained].map (sampleBone rootClip 0)) = [rcDerived] := by
  simp only [List.map_cons, List.map_nil, root_sample]
  rw [calculateFK, calculateFKFuel]
  have hdrv : evaluateDrivers [{ rootConstrained with rotation := 200 }] =
      [{ rootConstrained with rotation := 200 }] := by
    simp [evaluateDrivers, driverPass, List.range_succ, rootConstrained]
  rw [hdrv]
  simp [rootConstrained, processBone, rcDerived]

theorem rc_final_eval : (applyAnimation [rootConstrained] [] rootClip 0).1 = [rcFinal] := by
  rw [applyAnimation]
  dsimp only
  simp only [List.map_cons, List.map_nil, root_sample]
  have hdrv : evaluateDrivers [{ rootConstrained with rotation := 200 }] =
      [{ rootConstrained with rotation := 200 }] := by
    simp [evaluateDrivers, driverPass, List.range_succ, rootConstrained]
  rw [hdrv]
  simp only [List.map_cons, List.map_nil]
  have h2 : calculateFK [{ rootConstrained with rotation := 200 }] = [rcDerived] := by
    have := rc_fk
    simp only [List.map_cons, List.map_nil, root_sample] at this
    exact this
  rw [h2]
  have hfind : ([rcDerived].find?
      (fun db => db.id = ({ rootConstrained with rotation := (200:ℝ) } : Bone).id)) = some rcDerived := by
    simp [rcDerived, deriveBone, rootConstrained]
  rw [hfind]
  rfl

theorem rc_mem : rcFinal ∈ (applyAnimation [rootConstrained] [] rootClip 0).1 := by
  rw [rc_final_eval]
  exact List.mem_cons_self _ _

theorem rc_find : (calculateFK ([rootConstrained].map (sampleBone rootClip 0))).find?
    (fun db => db.id = rcFinal.id) = some rcDerived := by
  rw [rc_fk]
  simp [rcDerived, deriveBone, rcFinal, rootConstrained]

theorem rc_constraints_find :
    rcFinal.constraints.find? (fun cc => cc.type = "LIMIT_ROTATION") = some limitC := by
  simp [rcFinal, rootConstrained, limitC]

theorem sampler_reconciliation_witness :
    (-10 : ℝ) ≤ rcFinal.rotation ∧ rcFinal.rotation ≤ 130 :=
  ((sampler_reconciliation_amended [rootConstrained] [] rootClip 0 (by simp)).2
    rcFinal rc_mem rcDerived rc_find).2 limitC (-10) 130 rc_constraints_find rfl rfl (by norm_num)

/-! ### Claim C10 (confirmed): termination of the FK traversal -/

/-- `c` is reachable downward from `b` along parent links into `all`:
`b` itself, or a bone of `all` whose parent id is the id of a bone already
reachable. -/
inductive DescFrom (all : List Bone) : Bone → Bone → Prop where
  | refl (b : Bone) (hb : b ∈ all) : DescFrom all b b
  | step {b w x : Bone} (hw : DescFrom all b w) (hx : x ∈ all) (hpid : x.parentId = some w.id) :
      DescFrom all b x

theorem descFrom_mem_left {all : List Bone} {b c : Bone} (h : DescFrom all b c) : b ∈ all := by
  induction h with
  | refl hb => exact hb
  | step _ _ _ ih => exact ih

theorem descFrom_mem_right {all : List Bone} {b c : Bone} (h : DescFrom all b c) : c ∈ all := by
  cases h with
  | refl hb => exact hb
  | step _ hx _ => exact hx

theorem descFrom_trans {all : List Bone} {a b c : Bone}
    (h1 : DescFrom all a b) (h2 : DescFrom all b c) : DescFrom all a c := by
  induction h2 with
  | refl _ => exact h1
  | step _ hx hpid ih => exact DescFrom.step ih hx hpid

/-- Bones of a Nodup-id list are determined by their id. -/
theorem id_inj {all : List Bone} (hids : (all.map (fun b => b.id)).Nodup)
    {b1 b2 : Bone} (h1 : b1 ∈ all) (h2 : b2 ∈ all) (h : b1.id = b2.id) : b1 = b2 :=
  List.inj_on_of_nodup_map hids h1 h2 h

theorem descFrom_comparable {all : List Bone} (hids : (all.map (fun b => b.id)).Nodup)
    {b1 b2 x : Bone} (h1 : DescFrom all b1 x) (h2 : DescFrom all b2 x) :
    DescFrom all b1 b2 ∨ DescFrom all b2 b1 := by
  induction h1 with
  | refl hb => exact Or.inr h2
  | step hw hx hpid ih =>
    cases h2 with
    | refl hb2 => exact Or.inl (DescFrom.step hw hx hpid)
    | step hw2 hx2 hpid2 =>
      have : _ = _ := hpid.symm.trans hpid2
      have hid : _ = _ := Option.some.inj this
      have hww : _ = _ := id_inj hids (descFrom_mem_right hw) (descFrom_mem_right hw2) hid
      rw [← hww] at hw2
      exact ih hw2

/-- The parent-link chain invariant of the FK recursion stack: every element
is a bone of `all`, each element's parent id is the next element's id, and
the last element is a root. -/
def ParentChainG (all : List Bone) (L : List Bone) : Prop :=
  (∀ e ∈ L, e ∈ all) ∧
  (∀ i (h : i + 1 < L.length), (L.get ⟨i, by omega⟩).parentId = some ((L.get ⟨i + 1, h⟩).id)) ∧
  (∀ (h : L ≠ []), (L.getLast h).parentId = none)

theorem parentChainG_tail {all : List Bone} {x : Bone} {L : List Bone}
    (h : ParentChainG all (x :: L)) (hne : L ≠ []) : ParentChainG all L := by
  obtain ⟨hmem, hidx, hlast⟩ := h
  refine ⟨fun e he => hmem e (List.mem_cons_of_mem _ he), ?_, ?_⟩
  · intro i hi
    have := hidx (i + 1) (by simp at hi ⊢; omega)
    simpa using this
  · intro _
    have := hlast (List.cons_ne_nil x L)
    rwa [List.getLast_cons hne] at this

theorem parentChainG_cons {all : List Bone} {b : Bone} {stack : List Bone}
    (h : ParentChainG all (b :: stack)) {c : Bone} (hc : c ∈ all)
    (hpid : c.parentId = some b.id) : ParentChainG all (c :: b :: stack) := by
  obtain ⟨hmem, hidx, hlast⟩ := h
  refine ⟨?_, ?_, ?_⟩
  · intro e he
    rcases List.mem_cons.mp he with he | he
    · subst he; exact hc
    · exact hmem e he
  · intro i hi
    cases i with
    | zero => simpa using hpid
    | succ j =>
      have := hidx j (by simp at hi ⊢; omega)
      simpa using this
  · intro _
    have := hlast (List.cons_ne_nil b stack)
    rwa [List.getLast_cons (List.cons_ne_nil b stack)]



theorem chain_ids_nodup {all L : List Bone} (hids : (all.map (fun b => b.id)).Nodup)
    (hmem : ∀ e ∈ L, e ∈ all) (hnd : L.Nodup) : (L.map (fun b => b.id)).Nodup :=
  hnd.map_on (fun x hx y hy hxy => id_inj hids (hmem x hx) (hmem y hy) hxy)

theorem chain_child_not_mem {all : List Bone} (hids : (all.map (fun b => b.id)).Nodup)
    {b : Bone} {stack : List Bone}
    (hch : ParentChainG all (b :: stack)) (hnd : (b :: stack).Nodup)
    {c : Bone} (hc : c ∈ all) (hpid : c.parentId = some b.id) : c ∉ b :: stack := by
  intro hcmem
  obtain ⟨hmem, hidx, hlast⟩ := hch
  obtain ⟨⟨k, hk⟩, hgetc⟩ := List.mem_iff_get.mp hcmem
  by_cases hk1 : k + 1 < (b :: stack).length
  · have h1 := hidx k hk1
    rw [hgetc] at h1
    rw [hpid] at h1
    have hideq : ((b :: stack).get ⟨k + 1, hk1⟩).id = b.id := (Option.some.inj h1).symm
    have hbeq : (b :: stack).get ⟨k + 1, hk1⟩ = (b :: stack).get ⟨0, by simp⟩ :=
      id_inj hids (hmem _ (List.get_mem _ _ _)) (hmem _ (List.get_mem _ _ _)) (by simpa using hideq)
    have h2 := (hnd.get_inj_iff).mp hbeq
    have hv := congrArg Fin.val h2
    simp at hv
  · have hklast : k = stack.length := by
      simp at hk hk1
      omega
    have hgl : (b :: stack).getLast (List.cons_ne_nil b stack) = (b :: stack).get ⟨k, hk⟩ := by
      rw [List.getLast_eq_get]
      congr 1
      simp [hklast]
    have := hlast (List.cons_ne_nil b stack)
    rw [hgl, hgetc, hpid] at this
    exact Option.noConfusion this

theorem desc_end {all : List Bone} (hids : (all.map (fun b => b.id)).Nodup) :
    ∀ {c b : Bone}, DescFrom all c b → ∀ (stack : List Bone),
      ParentChainG all (b :: stack) → c ∈ b :: stack := by
  intro c b hdesc
  induction hdesc with
  | refl hb => intro stack _; exact List.mem_cons_self _ _
  | step hw hx hpid ih =>
    intro stack hch
    match stack with
    | [] =>
      exfalso
      have := hch.2.2 (by simp)
      simp at this
      rw [hpid] at this
      exact Option.noConfusion this
    | t :: stack' =>
      have h0 := hch.2.1 0 (by simp)
      simp only [List.get] at h0
      rw [hpid] at h0
      have hwt : _ = _ := Option.some.inj h0
      have hweq : _ = _ :=
        id_inj hids (descFrom_mem_right hw) (hch.1 t (List.mem_cons_of_mem _ (List.mem_cons_self _ _))) hwt
      have hch' := parentChainG_tail hch (List.cons_ne_nil t stack')
      rw [← hweq] at hch'
      have hm := ih stack' hch'
      rw [hweq] at hm
      exact List.mem_cons_of_mem _ hm



theorem chain_length_le {all L : List Bone} (hmem : ∀ e ∈ L, e ∈ all) (hnd : L.Nodup) :
    L.length ≤ all.length :=
  (List.subperm_of_subset hnd (fun x hx => hmem x hx)).length_le

theorem processBone_fuel_eq (all : List Bone) (hids : (all.map (fun b => b.id)).Nodup) :
    ∀ (fuel1 fuel2 : Nat) (b : Bone) (stack : List Bone) (parent : Option DerivedBone),
      ParentChainG all (b :: stack) → (b :: stack).Nodup →
      all.length - stack.length ≤ fuel1 → all.length - stack.length ≤ fuel2 →
      processBone all fuel1 parent b = processBone all fuel2 parent b := by
  intro fuel1
  induction fuel1 with
  | zero =>
    intro fuel2 b stack parent hch hnd h1 h2
    exfalso
    have hlen := chain_length_le hch.1 hnd
    simp at hlen
    omega
  | succ f1 ih =>
    intro fuel2 b stack parent hch hnd h1 h2
    have hlen := chain_length_le hch.1 hnd
    simp at hlen
    cases fuel2 with
    | zero => omega
    | succ f2 =>
      rw [processBone, processBone]
      congr 1
      apply List.flatMap_congr
      intro child hchild
      have hchmem := List.mem_filter.mp hchild
      have hcall : child ∈ all := hchmem.1
      have hcpid : child.parentId = some b.id := by simpa using hchmem.2
      have hnotmem := chain_child_not_mem hids hch hnd hcall hcpid
      have hch2 := parentChainG_cons hch hcall hcpid
      have hnd2 : (child :: b :: stack).Nodup := List.nodup_cons.mpr ⟨hnotmem, hnd⟩
      exact ih f2 child (b :: stack) (some (deriveBone parent b)) hch2 hnd2
        (by simp; omega) (by simp; omega)

theorem sibling_subtree_disjoint (all : List Bone) (hids : (all.map (fun b => b.id)).Nodup)
    {b : Bone} {stack : List Bone}
    (hch : ParentChainG all (b :: stack)) (hnd : (b :: stack).Nodup) :
    ∀ {c1 c2 x : Bone}, c1 ∈ all → c1.parentId = some b.id →
      c2 ∈ all → c2.parentId = some b.id → c1 ≠ c2 →
      DescFrom all c1 x → DescFrom all c2 x → False := by
  have key : ∀ {c1 c2 : Bone}, c1 ∈ all → c1.parentId = some b.id →
      c2.parentId = some b.id → c1 ≠ c2 → DescFrom all c1 c2 → False := by
    intro c1 c2 h1mem h1pid h2pid hne hdesc
    cases hdesc with
    | refl hb => exact hne rfl
    | step hw hx hpid =>
      have hweq := id_inj hids (descFrom_mem_right hw) (hch.1 b (List.mem_cons_self _ _))
        (Option.some.inj (hpid.symm.trans h2pid))
      rw [hweq] at hw
      have hmem := desc_end hids hw stack hch
      exact chain_child_not_mem hids hch hnd h1mem h1pid hmem
  intro c1 c2 x h1mem h1pid h2mem h2pid hne hd1 hd2
  rcases descFrom_comparable hids hd1 hd2 with h | h
  · exact key h1mem h1pid h2pid hne h
  · exact key h2mem h2pid h1pid (fun hh => hne hh.symm) h

theorem head_not_in_subtree (all : List Bone) (hids : (all.map (fun b => b.id)).Nodup)
    {b : Bone} {stack : List Bone}
    (hch : ParentChainG all (b :: stack)) (hnd : (b :: stack).Nodup) :
    ∀ {c x : Bone}, c ∈ all → c.parentId = some b.id → DescFrom all c x → x.id = b.id → False := by
  intro c x hcmem hcpid hdesc hid
  have hxb : x = b := id_inj hids (descFrom_mem_right hdesc) (hch.1 b (List.mem_cons_self _ _)) hid
  rw [hxb] at hdesc
  have hmem := desc_end hids hdesc stack hch
  exact chain_child_not_mem hids hch hnd hcmem hcpid hmem



theorem processBone_nodup (all : List Bone) (hids : (all.map (fun b => b.id)).Nodup) :
    ∀ (fuel : Nat) (b : Bone) (stack : List Bone) (parent : Option DerivedBone),
      ParentChainG all (b :: stack) → (b :: stack).Nodup →
      (((processBone all fuel parent b).map (fun db => db.id)).Nodup ∧
       ∀ db ∈ processBone all fuel parent b, ∃ c, DescFrom all b c ∧ db.id = c.id) := by
  intro fuel
  induction fuel with
  | zero =>
    intro b stack parent _ _
    constructor
    · rw [processBone]
      simp
    · intro db hdb
      rw [processBone] at hdb
      simp at hdb
  | succ f ih =>
    intro b stack parent hch hnd
    have hbmem : b ∈ all := hch.1 b (List.mem_cons_self _ _)
    have hchildfacts : ∀ c ∈ all.filter (fun bb => bb.parentId = some b.id),
        c ∈ all ∧ c.parentId = some b.id := fun c hc =>
      ⟨(List.mem_filter.mp hc).1, by simpa using (List.mem_filter.mp hc).2⟩
    have hsub : ∀ c ∈ all.filter (fun bb => bb.parentId = some b.id),
        ((processBone all f (some (deriveBone parent b)) c).map (fun db => db.id)).Nodup ∧
        ∀ db ∈ processBone all f (some (deriveBone parent b)) c,
          ∃ x, DescFrom all c x ∧ db.id = x.id := by
      intro c hc
      obtain ⟨hcall, hcpid⟩ := hchildfacts c hc
      have hnotmem := chain_child_not_mem hids hch hnd hcall hcpid
      exact ih c (b :: stack) _ (parentChainG_cons hch hcall hcpid)
        (List.nodup_cons.mpr ⟨hnotmem, hnd⟩)
    constructor
    · rw [processBone]
      simp only [List.map_cons]
      rw [List.nodup_cons]
      constructor
      · intro hmem
        rw [List.map_flatMap, List.mem_flatMap] at hmem
        obtain ⟨c, hc, hid⟩ := hmem
        rw [List.mem_map] at hid
        obtain ⟨db, hdb, hdbid⟩ := hid
        obtain ⟨x, hdescx, hdbx⟩ := (hsub c hc).2 db hdb
        obtain ⟨hcall, hcpid⟩ := hchildfacts c hc
        apply head_not_in_subtree all hids hch hnd hcall hcpid hdescx
        rw [← hdbx]
        exact hdbid
      · rw [List.map_flatMap, List.flatMap_def, List.nodup_flatten]
        constructor
        · intro l hl
          rw [List.mem_map] at hl
          obtain ⟨c, hc, hceq⟩ := hl
          rw [← hceq]
          exact (hsub c hc).1
        · rw [List.pairwise_map]
          have hchildnd : (all.filter (fun bb => bb.parentId = some b.id)).Nodup :=
            List.Nodup.filter _ (List.Nodup.of_map _ hids)
          apply List.Pairwise.imp_of_mem ?_ hchildnd
          intro c1 c2 hc1 hc2 hne
          intro a ha1 ha2
          rw [List.mem_map] at ha1 ha2
          obtain ⟨db1, hdb1, hdb1id⟩ := ha1
          obtain ⟨db2, hdb2, hdb2id⟩ := ha2
          obtain ⟨x1, hdx1, hdb1x⟩ := (hsub c1 hc1).2 db1 hdb1
          obtain ⟨x2, hdx2, hdb2x⟩ := (hsub c2 hc2).2 db2 hdb2
          have hx12 : x1 = x2 := by
            apply id_inj hids (descFrom_mem_right hdx1) (descFrom_mem_right hdx2)
            rw [← hdb1x, ← hdb2x, hdb1id, hdb2id]
          rw [hx12] at hdx1
          obtain ⟨hc1all, hc1pid⟩ := hchildfacts c1 hc1
          obtain ⟨hc2all, hc2pid⟩ := hchildfacts c2 hc2
          exact sibling_subtree_disjoint all hids hch hnd hc1all hc1pid hc2all hc2pid hne hdx1 hdx2
    · intro db hdb
      rw [processBone] at hdb
      rcases List.mem_cons.mp hdb with hdb | hdb
      · refine ⟨b, DescFrom.refl b hbmem, ?_⟩
        rw [hdb]
        rfl
      · rw [List.mem_flatMap] at hdb
        obtain ⟨c, hc, hdbc⟩ := hdb
        obtain ⟨x, hdescx, hdbx⟩ := (hsub c hc).2 db hdbc
        obtain ⟨hcall, hcpid⟩ := hchildfacts c hc
        exact ⟨x, descFrom_trans (DescFrom.step (DescFrom.refl b hbmem) hcall hcpid) hdescx, hdbx⟩



theorem forall₂_updRXY_ids {l1 l2 : List Bone} (h : List.Forall₂ UpdRXY l1 l2) :
    l1.map (fun b => b.id) = l2.map (fun b => b.id) := by
  induction h with
  | nil => rfl
  | cons hab _ ih =>
    simp only [List.map_cons]
    rw [updRXY_id hab, ih]

theorem evaluateDrivers_ids (bs : List Bone) :
    (evaluateDrivers bs).map (fun b => b.id) = bs.map (fun b => b.id) :=
  forall₂_updRXY_ids (evaluateDrivers_rel bs)

theorem root_chain {all : List Bone} {r : Bone} (hrmem : r ∈ all) (hrpid : r.parentId = none) :
    ParentChainG all [r] := by
  refine ⟨?_, ?_, ?_⟩
  · intro e he
    rw [List.mem_singleton] at he
    rw [he]
    exact hrmem
  · intro i hi
    simp at hi
  · intro _
    simpa using hrpid

theorem root_subtree_disjoint (all : List Bone) (hids : (all.map (fun b => b.id)).Nodup)
    {r1 r2 x : Bone} (h1pid : r1.parentId = none) (h2pid : r2.parentId = none)
    (hne : r1 ≠ r2) (hd1 : DescFrom all r1 x) (hd2 : DescFrom all r2 x) : False := by
  have key : ∀ {a b : Bone}, a.parentId = none → b ≠ a → DescFrom all b a → False := by
    intro a b hpid hnab hd
    cases hd with
    | refl _ => exact hnab rfl
    | step hw hx hpid2 => exact Option.noConfusion (hpid.symm.trans hpid2)
  rcases descFrom_comparable hids hd1 hd2 with h | h
  · exact key h2pid hne h
  · exact key h1pid (fun hh => hne hh.symm) h

/-- Claim C10: for a bone array with pairwise-distinct ids the FK traversal
terminates — adding any extra fuel beyond the number of bones does not
change `calculateFK`'s output; the traversal visits each bone at most once
(the output ids are pairwise distinct); and every output entry stems from a
bone reachable from a root by parent links, so bones with dangling parent
ids or in parent-reference cycles are never visited and are absent from the
output. -/
theorem calculateFK_terminating (bones : List Bone)
    (hids : (bones.map (fun b => b.id)).Nodup) :
    (∀ extra, calculateFKFuel bones ((evaluateDrivers bones).length + extra) = calculateFK bones) ∧
    ((calculateFK bones).map (fun db => db.id)).Nodup ∧
    (∀ db ∈ calculateFK bones, ∃ r c, r ∈ evaluateDrivers bones ∧ r.parentId = none ∧
       DescFrom (evaluateDrivers bones) r c ∧ db.id = c.id) := by
  have hids2 : ((evaluateDrivers bones).map (fun b => b.id)).Nodup := by
    rw [evaluateDrivers_ids]
    exact hids
  have hrootfacts : ∀ r ∈ (evaluateDrivers bones).filter (fun bb => bb.parentId = none),
      r ∈ evaluateDrivers bones ∧ r.parentId = none := fun r hr =>
    ⟨(List.mem_filter.mp hr).1, by simpa using (List.mem_filter.mp hr).2⟩
  refine ⟨?_, ?_, ?_⟩
  · intro extra
    simp only [calculateFK, calculateFKFuel]
    apply List.flatMap_congr
    intro r hr
    obtain ⟨hrmem, hrpid⟩ := hrootfacts r hr
    exact processBone_fuel_eq _ hids2 _ _ r [] none (root_chain hrmem hrpid)
      (List.nodup_singleton r) (by simp) (by simp)
  · simp only [calculateFK, calculateFKFuel]
    rw [List.map_flatMap, List.flatMap_def, List.nodup_flatten]
    constructor
    · intro l hl
      rw [List.mem_map] at hl
      obtain ⟨r, hr, hreq⟩ := hl
      obtain ⟨hrmem, hrpid⟩ := hrootfacts r hr
      rw [← hreq]
      exact (processBone_nodup _ hids2 _ r [] none (root_chain hrmem hrpid)
        (List.nodup_singleton r)).1
    · rw [List.pairwise_map]
      have hrootnd : ((evaluateDrivers bones).filter (fun bb => bb.parentId = none)).Nodup :=
        List.Nodup.filter _ (List.Nodup.of_map _ hids2)
      apply List.Pairwise.imp_of_mem ?_ hrootnd
      intro r1 r2 hr1 hr2 hne
      intro a ha1 ha2
      rw [List.mem_map] at ha1 ha2
      obtain ⟨db1, hdb1, hdb1id⟩ := ha1
      obtain ⟨db2, hdb2, hdb2id⟩ := ha2
      obtain ⟨hr1mem, hr1pid⟩ := hrootfacts r1 hr1
      obtain ⟨hr2mem, hr2pid⟩ := hrootfacts r2 hr2
      obtain ⟨x1, hdx1, hdb1x⟩ := (processBone_nodup _ hids2 _ r1 [] none
        (root_chain hr1mem hr1pid) (List.nodup_singleton r1)).2 db1 hdb1
      obtain ⟨x2, hdx2, hdb2x⟩ := (processBone_nodup _ hids2 _ r2 [] none
        (root_chain hr2mem hr2pid) (List.nodup_singleton r2)).2 db2 hdb2
      have hx12 : x1 = x2 := by
        apply id_inj hids2 (descFrom_mem_right hdx1) (descFrom_mem_right hdx2)
        rw [← hdb1x, ← hdb2x, hdb1id, hdb2id]
      rw [hx12] at hdx1
      exact root_subtree_disjoint _ hids2 hr1pid hr2pid hne hdx1 hdx2
  · intro db hdb
    simp only [calculateFK, calculateFKFuel, List.mem_flatMap] at hdb
    obtain ⟨r, hr, hdbp⟩ := hdb
    obtain ⟨hrmem, hrpid⟩ := hrootfacts r hr
    obtain ⟨x, hdesc, hid⟩ := (processBone_nodup _ hids2 _ r [] none
      (root_chain hrmem hrpid) (List.nodup_singleton r)).2 db hdbp
    exact ⟨r, x, hrmem, hrpid, hdesc, hid⟩



theorem calculateFK_terminating_witness :
    calculateFKFuel demoBones ((evaluateDrivers demoBones).length + 5) = calculateFK demoBones ∧
    ((calculateFK demoBones).map (fun db => db.id)).Nodup :=
  ⟨(calculateFK_terminating demoBones (by simp [demoBones, rootBone10, childBone5])).1 5,
   (calculateFK_terminating demoBones (by simp [demoBones, rootBone10, childBone5])).2.1⟩

end Animator2D
